import Mathlib

/-!
Verification of `scripts/extract_commits.py` (git-commit extraction tool).

This file gives a shallow embedding of the pure core of the script:
header parsing, raw change-line parsing (`parse_file_change`), diff
analysis (`analyze_diff`), matching of diff sections to file changes
(`find_file_change_by_path` and the two passes of `get_commit_details`),
record assembly, and the batch writer loop (`writer_process`).

Machine integers are modelled as `Nat`/`Int` (the Python counters are
unbounded non-negative counts).  Python functions that can raise on
malformed data (`int(...)`, `datetime.fromtimestamp`) are modelled with
`Except`/`Option`.  Python's regular expressions and string methods are
modelled by hand-rolled deterministic matchers; each such definition
carries a comment justifying that the deterministic reading agrees with
Python's backtracking semantics on the concrete pattern.  Where Python's
`\d`, `\s`, `int()` also accept some non-ASCII characters, the model
restricts to the ASCII interpretation.
-/

/-! ## Python string primitives -/

/-- ASCII reading of Python's regex class `\s` / `str` whitespace. -/
def isPySpace (c : Char) : Bool :=
  c = ' ' || c = '\t' || c = '\n' || c = '\x0b' || c = '\x0c' || c = '\r'

/-- ASCII reading of Python's regex class `\d`. -/
def isPyDigit (c : Char) : Bool :=
  '0' ≤ c && c ≤ '9'

/-- The regex class `[a-f0-9]` used for blob hashes. -/
def isPyHex (c : Char) : Bool :=
  isPyDigit c || ('a' ≤ c && c ≤ 'f')

/-- Models Python's `str.startswith(pre)`. -/
def pyStartsWith (s pre : String) : Bool :=
  pre.data.isPrefixOf s.data

/-- Helper for `pySplitChar`: `acc` is the current token, reversed. -/
def pySplitCharAux (sep : Char) : List Char → List Char → List String
  | [], acc => [String.mk acc.reverse]
  | c :: cs, acc =>
      if c = sep then String.mk acc.reverse :: pySplitCharAux sep cs []
      else pySplitCharAux sep cs (c :: acc)

/-- Models Python's `str.split(sep)` for a one-character separator:
splits at every occurrence and keeps empty pieces, so the result is
always non-empty.  Used for `split("\x00")`, `split("\t")` and
`split("\n")` in the script. -/
def pySplitChar (sep : Char) (s : String) : List String :=
  pySplitCharAux sep s.data []

/-- Helper for `pysplit`: `acc` is the current token, reversed; a
whitespace character closes the token (if non-empty), any other
character extends it. -/
def wsSplitAux : List Char → List Char → List String
  | [], [] => []
  | [], acc => [String.mk acc.reverse]
  | c :: cs, acc =>
      if isPySpace c then
        match acc with
        | [] => wsSplitAux cs []
        | _ => String.mk acc.reverse :: wsSplitAux cs []
      else wsSplitAux cs (c :: acc)

/-- Models Python's no-argument `str.split()`: split on runs of
whitespace, discarding empty tokens. -/
def pysplit (s : String) : List String :=
  wsSplitAux s.data []

/-- Digit value of an ASCII digit. -/
def digitVal (c : Char) : Nat := c.toNat - 48

/-- Digit-run parser for `pyInt`: accepts digits with single
underscores between digits (Python `int()` literal grammar), having
already consumed a first digit whose value is in `acc`. -/
def pyIntLoop : List Char → Nat → Option Nat
  | [], acc => some acc
  | ['_'], _ => none
  | '_' :: c :: rest2, acc =>
      if isPyDigit c then pyIntLoop rest2 (acc * 10 + digitVal c) else none
  | c :: rest, acc =>
      if isPyDigit c then pyIntLoop rest (acc * 10 + digitVal c) else none

/-- Models Python's `int(s)` on strings: strips whitespace, allows a
single sign, then digits with single interior underscores; anything
else raises `ValueError` (modelled as `none`).  Restricted to ASCII
digits/whitespace. -/
def pyInt (s : String) : Option Int :=
  let cs := ((s.data.dropWhile isPySpace).reverse.dropWhile isPySpace).reverse
  match cs with
  | '+' :: c :: rest =>
      if isPyDigit c then (pyIntLoop rest (digitVal c)).map Int.ofNat else none
  | '-' :: c :: rest =>
      if isPyDigit c then (pyIntLoop rest (digitVal c)).map (fun n => -(n : Int)) else none
  | c :: rest =>
      if isPyDigit c then (pyIntLoop rest (digitVal c)).map Int.ofNat else none
  | [] => none

/-- Models `pathlib.Path(p).name`: the final path component, with empty
and `.` components dropped (pathlib normalisation). -/
def pathName (p : String) : String :=
  (((pySplitChar '/' p).filter (fun c => c ≠ "" && c ≠ ".")).getLast?).getD ""

/-- Models `pathlib.Path(p).suffix`: the extension of the final
component (`name[i:]` for the last dot at `0 < i < len - 1`). -/
def pathSuffix (p : String) : String :=
  let name := (pathName p).data
  let i := (name.reverse.takeWhile (fun c => c ≠ '.')).length
  -- position of the last '.' from the end; last dot index = len - 1 - i
  if i < name.length ∧ 0 < name.length - 1 - i ∧ 0 < i then
    String.mk (name.drop (name.length - 1 - i))
  else ""

/-! ## Local-time formatting (`datetime.fromtimestamp(...).strftime`)

`datetime.fromtimestamp` converts epoch seconds to local civil time.
The local timezone is environment data, not derivable from the source,
so the model takes a fixed UTC offset `tz` in seconds (DST is ignored).
Python raises `OSError`/`OverflowError`/`ValueError` for timestamps
whose civil year falls outside `1..9999`; the model returns `none`
there. -/

/-- Days-to-civil-date conversion (proleptic Gregorian calendar,
Howard Hinnant's `civil_from_days` algorithm). -/
def civilFromDays (z0 : Int) : Int × Nat × Nat :=
  let z := z0 + 719468
  let era : Int := Int.fdiv z 146097
  let doe : Nat := (z - era * 146097).toNat
  let yoe : Nat := (doe - doe / 1460 + doe / 36524 - doe / 146096) / 365
  let doy : Nat := doe - (365 * yoe + yoe / 4 - yoe / 100)
  let mp : Nat := (5 * doy + 2) / 153
  let d : Nat := doy - (153 * mp + 2) / 5 + 1
  let m : Nat := if mp < 10 then mp + 3 else mp - 9
  let y : Int := (yoe : Int) + era * 400 + (if m ≤ 2 then 1 else 0)
  (y, m, d)

/-- Civil datetime `(year, month, day, hour, minute, second)`. -/
def fromtimestamp (tz ts : Int) : Option (Int × Nat × Nat × Nat × Nat × Nat) :=
  let t := ts + tz
  let days := Int.fdiv t 86400
  let sod := (Int.fmod t 86400).toNat
  let (y, m, d) := civilFromDays days
  if 1 ≤ y ∧ y ≤ 9999 then some (y, m, d, sod / 3600, sod % 3600 / 60, sod % 60)
  else none

/-- Zero-padded two-digit field. -/
def pad2 (n : Nat) : String :=
  if n < 10 then "0" ++ toString n else toString n

/-- Zero-padded four-digit year. -/
def pad4 (n : Nat) : String :=
  if n < 10 then "000" ++ toString n
  else if n < 100 then "00" ++ toString n
  else if n < 1000 then "0" ++ toString n
  else toString n

/-- Models `dt.strftime("%Y-%m-%d %H:%M:%S")`. -/
def fmtDT (dt : Int × Nat × Nat × Nat × Nat × Nat) : String :=
  let (y, m, d, h, mi, s) := dt
  pad4 y.toNat ++ "-" ++ pad2 m ++ "-" ++ pad2 d ++ " " ++
    pad2 h ++ ":" ++ pad2 mi ++ ":" ++ pad2 s

/-! ## FileChange and `parse_file_change` -/

/-- The per-file record built by `parse_file_change` and mutated by
`analyze_diff`.  `path` is `Option String` because the Python value
`new_path or old_path` can be `None` on degenerate descriptor lines;
`change_type` keeps the Python strings `"Add"`, `"Delete"`, .... -/
structure FileChange where
  change_type : String
  path : Option String
  old_path : Option String
  file_extension : String
  lines_added : Nat
  lines_deleted : Nat
  hunks_added : Nat
  hunks_removed : Nat
  hunks_changed : Nat
deriving Repr, DecidableEq

/-- Take a non-empty maximal run of characters satisfying `p`;
models a greedy regex block `X+` whose class is disjoint from what
follows, so no backtracking into the run is possible. -/
def takeWhile1 (p : Char → Bool) (cs : List Char) : Option (List Char × List Char) :=
  match cs.takeWhile p with
  | [] => none
  | t => some (t, cs.dropWhile p)

/-- The `change_type_map.get(status, 'Modify')` dictionary from the
script, including its (unreachable, see claim C2) `Modify` default. -/
def changeTypeMap (c : Char) : String :=
  if c = 'A' then "Add"
  else if c = 'D' then "Delete"
  else if c = 'M' then "Modify"
  else if c = 'R' then "Rename"
  else if c = 'C' then "Copy"
  else if c = 'T' then "Type"
  else "Modify"

/-- The status-letter class `[ADMRCT]` of the descriptor regex. -/
def isStatusChar (c : Char) : Bool :=
  c = 'A' || c = 'D' || c = 'M' || c = 'R' || c = 'C' || c = 'T'

/-- Models the tail `\s+(.+)$` of the descriptor regex, applied after
the optional score digits.  In Python, `\s+` is greedy; `.` matches any
character but `\n`; `$` matches at the end or just before one final
`\n`.  Taking the maximal whitespace run `w` first is the greedy
behaviour; when the remainder `rest` is empty the engine backtracks and
gives the last whitespace character (or, before one final newline, the
one before it) to `(.+)`. -/
def matchTail (cs : List Char) : Option (List Char) :=
  let w := cs.takeWhile isPySpace
  let rest := cs.dropWhile isPySpace
  if w = [] then none
  else if rest ≠ [] then
    if rest.contains '\n' then
      if rest.getLast? = some '\n' ∧ ¬ (rest.dropLast.contains '\n') ∧ rest.dropLast ≠ []
      then some rest.dropLast else none
    else some rest
  else
    match w.getLast? with
    | some '\n' =>
        if 3 ≤ w.length ∧ w.dropLast.getLast? ≠ some '\n'
        then some [(w.dropLast.getLast?).getD ' '] else none
    | some c => if 2 ≤ w.length then some [c] else none
    | none => none

/-- Models `parse_file_change`: matches the anchored regex
`^:(\d+)\s+(\d+)\s+([a-f0-9]+)\s+([a-f0-9]+)\s+([ADMRCT])(\d+)?\s+(.+)$`
and builds the file-change dictionary.  All the character classes of
adjacent greedy blocks are disjoint, so the regex match is equivalent
to the maximal-munch parse below (a failure can never be repaired by
backtracking, except in the `\s+(.+)$` tail handled by `matchTail`). -/
def parse_file_change (line : String) : Option FileChange := do
  let cs ← match line.data with
    | ':' :: cs => some cs
    | _ => none
  let (_oldMode, r1) ← takeWhile1 isPyDigit cs
  let (_, r2) ← takeWhile1 isPySpace r1
  let (_newMode, r3) ← takeWhile1 isPyDigit r2
  let (_, r4) ← takeWhile1 isPySpace r3
  let (_oldSha, r5) ← takeWhile1 isPyHex r4
  let (_, r6) ← takeWhile1 isPySpace r5
  let (_newSha, r7) ← takeWhile1 isPyHex r6
  let (_, r8) ← takeWhile1 isPySpace r7
  let (status, r9) ← match r8 with
    | c :: rest => if isStatusChar c then some (c, rest) else none
    | [] => none
  let r10 := r9.dropWhile isPyDigit      -- the optional score `(\d+)?`
  let pathsChars ← matchTail r10
  let paths := String.mk pathsChars
  -- path_parts = paths.split("\t")
  let path_parts := pySplitChar '\t' paths
  -- two parts: (old_path, new_path); otherwise a single new_path
  let oldRaw : Option String := if path_parts.length = 2 then path_parts.head? else none
  let newRaw : String := if path_parts.length = 2 then (path_parts.getD 1 "") else path_parts.headD ""
  let pathVal : Option String := if newRaw ≠ "" then some newRaw else oldRaw
  let oldField : Option String := if oldRaw = some newRaw then none else oldRaw
  let ext : String :=
    if newRaw ≠ "" then pathSuffix newRaw
    else match oldRaw with
      | some o => if o ≠ "" then pathSuffix o else ""
      | none => ""
  pure {
    change_type := changeTypeMap status
    path := pathVal
    old_path := oldField
    file_extension := ext
    lines_added := 0
    lines_deleted := 0
    hunks_added := 0
    hunks_removed := 0
    hunks_changed := 0
  }

/-! ## `analyze_diff` -/

/-- The condition of line 213: a diff line counted into `lines_added`
(`line.startswith("+") and not line.startswith("+++")`). -/
def isAddLine (l : String) : Bool :=
  pyStartsWith l "+" && !pyStartsWith l "+++"

/-- The condition of line 216: a diff line counted into
`lines_deleted`. -/
def isDelLine (l : String) : Bool :=
  pyStartsWith l "-" && !pyStartsWith l "---"

/-- The condition of line 199: a hunk marker line
(`line.startswith("@@")`). -/
def isHunkHdr (l : String) : Bool :=
  pyStartsWith l "@@"

/-- Loop state of `analyze_diff`. -/
structure ADState where
  la : Nat
  ld : Nat
  ha : Nat
  hr : Nat
  hc : Nat
  in_hunk : Bool
  hasA : Bool
  hasD : Bool
deriving Repr, DecidableEq

/-- Classify and count the hunk that just ended (the body of the
`if current_hunk_has_additions and current_hunk_has_deletions: ...`
cascade in the script). -/
def adClose (st : ADState) : ADState :=
  if st.hasA && st.hasD then { st with hc := st.hc + 1 }
  else if st.hasA then { st with ha := st.ha + 1 }
  else if st.hasD then { st with hr := st.hr + 1 }
  else st

/-- One iteration of the `for line in diff_lines` loop. -/
def adStep (st : ADState) (line : String) : ADState :=
  if isHunkHdr line then
    let st1 := if st.in_hunk then adClose st else st
    { st1 with in_hunk := true, hasA := false, hasD := false }
  else if isAddLine line then
    { st with la := st.la + 1, hasA := true }
  else if isDelLine line then
    { st with ld := st.ld + 1, hasD := true }
  else st

/-- The trailing `# Process last hunk` block of `analyze_diff`. -/
def adFinish (st : ADState) : ADState :=
  if st.in_hunk then adClose st else st

/-- Final state of `analyze_diff`'s loop followed by the trailing
`# Process last hunk` block. -/
def adRun (diff_lines : List String) : ADState :=
  adFinish (diff_lines.foldl adStep ⟨0, 0, 0, 0, 0, false, false, false⟩)

/-- Models `analyze_diff(diff_lines, file_change)`: writes the five
counters computed from `diff_lines` into the file change and returns
it. -/
def analyze_diff (diff_lines : List String) (fc : FileChange) : FileChange :=
  let st := adRun diff_lines
  { fc with
      lines_added := st.la
      lines_deleted := st.ld
      hunks_added := st.ha
      hunks_removed := st.hr
      hunks_changed := st.hc }

/-! ## The file-change dictionary

Python's `file_changes_dict` maps path strings (or `None`) to
*references* to mutable `FileChange` dicts; a rename's record is
reachable under two keys.  The model makes the heap explicit: a store
`List FileChange` addressed by index, and an insertion-ordered
association list from keys to indices.  Assigning to an existing key
keeps its position (CPython dict semantics); a new key is appended. -/

/-- Insertion-ordered key-index map. -/
abbrev Dict := List (Option String × Nat)

/-- Models `d[k] = v`. -/
def dictSet (d : Dict) (k : Option String) (v : Nat) : Dict :=
  match d with
  | [] => [(k, v)]
  | (k1, v1) :: rest =>
      if k1 = k then (k, v) :: rest else (k1, v1) :: dictSet rest k v

/-- Models `d[k]` / `k in d`. -/
def dictGet (d : Dict) (k : Option String) : Option Nat :=
  match d with
  | [] => none
  | (k1, v1) :: rest => if k1 = k then some v1 else dictGet rest k

/-- Models `find_file_change_by_path(file_changes_dict, path)`: walk
the dict values in insertion order and return the first file change
whose `path` or truthy `old_path` equals `path`.  Returns the store
index of that record (the Python function returns the reference). -/
def find_file_change_by_path (store : List FileChange) (d : Dict) (p : String) : Option Nat :=
  d.findSome? fun kv =>
    match store[kv.2]? with
    | some fc =>
        if fc.path = some p || (fc.old_path = some p && p ≠ "") then some kv.2 else none
    | none => none

/-! ## Pass 1: collect file changes from `:` lines -/

/-- Accumulator of the first pass: the store, the dict, and
`file_changes_list` (the recorded `path` keys in creation order). -/
structure P1 where
  store : List FileChange
  dict : Dict
  order : List (Option String)
deriving DecidableEq

/-- One iteration of the first `for line in lines[1:]` loop. -/
def pass1Step (acc : P1) (line : String) : P1 :=
  if pyStartsWith line ":" then
    match parse_file_change line with
    | some fc =>
        let i := acc.store.length
        let d1 := dictSet acc.dict fc.path i
        let d2 :=
          match fc.old_path with
          | some o => if o ≠ "" && fc.path ≠ some o then dictSet d1 (some o) i else d1
          | none => d1
        ⟨acc.store ++ [fc], d2, acc.order ++ [fc.path]⟩
    | none => acc
  else acc

/-- The first pass over `lines[1:]`. -/
def pass1 (body : List String) : P1 :=
  body.foldl pass1Step ⟨[], [], []⟩

/-- The store produced by the first pass. -/
def pass1Store (body : List String) : List FileChange :=
  (pass1 body).store

/-! ## Pass 2: match diff sections and run `analyze_diff` -/

/-- Models the path-extraction part of the `diff --git` branch
(lines 324-335): whitespace-split the header, strip the `a/`/`b/`
prefixes (a guarded `replace(.., .., 1)` removes the prefix), then
prefer a truthy `b` path that is not `/dev/null`, falling back to the
`a` path under the same conditions. -/
def diffHeaderPath (line : String) : Option String :=
  let parts := pysplit line
  if 4 ≤ parts.length then
    let t2 := parts.getD 2 ""
    let t3 := parts.getD 3 ""
    let aP : Option String :=
      if pyStartsWith t2 "a/" then some (String.mk (t2.data.drop 2)) else none
    let bP : Option String :=
      if pyStartsWith t3 "b/" then some (String.mk (t3.data.drop 2)) else none
    let bOK := match bP with
      | some b => b ≠ "" && b ≠ "/dev/null"
      | none => false
    let aOK := match aP with
      | some a => a ≠ "" && a ≠ "/dev/null"
      | none => false
    if bOK then bP else if aOK then aP else none
  else none

/-- The `if (line.startswith("index ") or ...)` filter for lines
captured into the current diff section. -/
def diffContentLine (line : String) : Bool :=
  pyStartsWith line "index " || pyStartsWith line "---" || pyStartsWith line "+++" ||
  pyStartsWith line "@@" || pyStartsWith line "+" || pyStartsWith line "-" ||
  pyStartsWith line " " || pyStartsWith line "\\" || line = ""

/-- State of the second pass.  `trace` is pure instrumentation: it
records the store index passed to `analyze_diff` at each flush, is
never read by the model, and exists to state claim C3. -/
structure S2 where
  cur : Option String
  curLines : List String
  store : List FileChange
  dict : Dict
  trace : List Nat
deriving DecidableEq

/-- The dictionary re-pointing of lines 316-318 (and 362-364): assign
the analysed record's index back under its `path` key, and under its
`old_path` alias when that is truthy and differs from `path`. -/
def flushDict (d : Dict) (i : Nat) (fc2 : FileChange) : Dict :=
  match fc2.old_path with
  | some o =>
      if o ≠ "" && fc2.path ≠ some o then
        dictSet (dictSet d fc2.path i) (some o) i
      else dictSet d fc2.path i
  | none => dictSet d fc2.path i

/-- Models the `# Save previous file's diff if exists` block
(lines 310-318, also used verbatim as the final lines 358-364):
if a section is pending and its path resolves, run `analyze_diff` on
the matched record and re-point both of its keys at it. -/
def flushSection (s : S2) : S2 :=
  match s.cur with
  | some p =>
      if p ≠ "" ∧ s.curLines ≠ [] then
        match find_file_change_by_path s.store s.dict p with
        | some i =>
            match s.store[i]? with
            | some fc =>
                { s with store := s.store.set i (analyze_diff s.curLines fc),
                         dict := flushDict s.dict i (analyze_diff s.curLines fc),
                         trace := s.trace ++ [i] }
            | none => s
        | none => s
      else s
  | none => s

/-- One iteration of the second `for line in lines[1:]` loop. -/
def pass2Step (s : S2) (line : String) : S2 :=
  if pyStartsWith line ":" then s
  else if pyStartsWith line "diff --git" then
    let s1 := flushSection s
    let cur2 := diffHeaderPath line
    { s1 with cur := cur2, curLines := if cur2.isSome then [line] else [] }
  else
    match s.cur with
    | some p =>
        if p ≠ "" then
          match find_file_change_by_path s.store s.dict p with
          | some _ =>
              if diffContentLine line then { s with curLines := s.curLines ++ [line] } else s
          | none => s
        else s
    | none => s

/-- The second pass over `lines[1:]`, including the trailing
`# Save last file's diff` flush. -/
def pass2 (store : List FileChange) (d : Dict) (body : List String) : S2 :=
  flushSection (body.foldl pass2Step ⟨none, [], store, d, []⟩)

/-- The `analyze_diff` call trace of a commit body: the store indices
written by diff analysis, in order (instrumentation for claim C3). -/
def analyzeTrace (body : List String) : List Nat :=
  let p1 := pass1 body
  (pass2 p1.store p1.dict body).trace

/-! ## Record assembly and `get_commit_details` -/

/-- The immutable commit record (keys as in the output JSON). -/
structure CommitRecord where
  hash : String
  org : String
  repo : String
  author : String
  time : String
  message : String
  merge : Bool
  files_added : Nat
  files_deleted : Nat
  files_renamed : Nat
  files_modified : Nat
  lines_added : Nat
  lines_deleted : Nat
  hunks_added : Nat
  hunks_removed : Nat
  hunks_changed : Nat
  file_changes : List FileChange
deriving Repr, DecidableEq

/-- Models lines 367-401: per-type file counts and aggregate line and
hunk totals over the assembled `file_changes` list, `merge` from the
parent count, and the final record. -/
def assemble (chash org repo author time_str message : String)
    (parents : List String) (fcs : List FileChange) : CommitRecord :=
  { hash := chash
    org := org
    repo := repo
    author := author
    time := time_str
    message := message
    merge := decide (1 < parents.length)
    files_added := (fcs.filter (fun fc => fc.change_type = "Add")).length
    files_deleted := (fcs.filter (fun fc => fc.change_type = "Delete")).length
    files_renamed := (fcs.filter (fun fc => fc.change_type = "Rename")).length
    files_modified := (fcs.filter (fun fc => fc.change_type = "Modify")).length
    lines_added := (fcs.map FileChange.lines_added).sum
    lines_deleted := (fcs.map FileChange.lines_deleted).sum
    hunks_added := (fcs.map FileChange.hunks_added).sum
    hunks_removed := (fcs.map FileChange.hunks_removed).sum
    hunks_changed := (fcs.map FileChange.hunks_changed).sum
    file_changes := fcs }

/-- A placeholder record for the (unreachable) out-of-range store
lookup in the list comprehension of line 367. -/
def defaultFC : FileChange := ⟨"", none, none, "", 0, 0, 0, 0, 0⟩

/-- Models line 367: `[file_changes_dict[path] for path in
file_changes_list if path in file_changes_dict]` after both passes. -/
def fileChangesOf (body : List String) : List FileChange :=
  let p1 := pass1 body
  let s2 := pass2 p1.store p1.dict body
  p1.order.filterMap fun p => (dictGet s2.dict p).map fun i => s2.store.getD i defaultFC

/-- The pure core of `get_commit_details` on the split output lines
(everything after the `git show` invocation and the returncode/empty
checks).  `.error` models a raised Python exception (`int(...)` on a
non-integer timestamp, `datetime.fromtimestamp` out of range). -/
def gcdCore (tz : Int) (chash org repo : String) :
    List String → Except String (Option CommitRecord)
  | [] => .ok none
  | l0 :: body =>
    let hp := pySplitChar '\x00' l0
    if hp.length < 4 then .ok none
    else
      match pyInt (hp.getD 0 "") with
      | none => .error "ValueError"
      | some ts =>
          match fromtimestamp tz ts with
          | none => .error "OverflowError"
          | some dt =>
              let author := hp.getD 1 ""
              let parents := if hp.getD 2 "" = "" then [] else pysplit (hp.getD 2 "")
              let message := hp.getD 3 ""
              .ok (some (assemble chash org repo author (fmtDT dt) message parents
                (fileChangesOf body)))

/-- Models `get_commit_details(repo_path, commit_hash, org, repo)` as a
function of the `git show` output (`stdout`, `returncode`) and the
local-time offset `tz`. -/
def get_commit_details (tz : Int) (returncode : Int) (chash org repo : String)
    (stdout : String) : Except String (Option CommitRecord) :=
  if returncode ≠ 0 ∨ stdout = "" then .ok none
  else gcdCore tz chash org repo (pySplitChar '\n' stdout)

/-! ## Writer and pipeline (`writer_process`, `process_repository`) -/

/-- The writer loop: queue items are commit records (`some c`) or the
`DONE = None` sentinel (`none`); the returned list holds the records
written to the output stream, one JSON line each, in write order.
An exhausted queue without a sentinel means `queue.get()` blocks
forever and nothing more is written. -/
def writerLoop {α : Type} (bs : Nat) : List (Option α) → List α → List α
  | [], _buf => []
  | none :: _rest, buf => buf
  | some c :: rest, buf =>
      let b := buf ++ [c]
      if bs ≤ b.length then b ++ writerLoop bs rest [] else writerLoop bs rest b

/-- Models `writer_process(queue, output_path, batch_size)`: the lines
written for a given queue content. -/
def writer_process {α : Type} (queue : List (Option α)) (batch_size : Nat) : List α :=
  writerLoop batch_size queue []

/-- Models the `if result: queue.put(result)` loop of
`process_repository`: the items the repository's readers place on the
queue, given the per-commit `get_commit_details` results in completion
order.  (`if result:` drops exactly the `None` results; a produced
record is a non-empty dict, hence truthy.) -/
def process_repository_enqueue {α : Type} (results : List (Option α)) : List (Option α) :=
  results.filter fun r => r.isSome

/-- Models `main`'s queue discipline: each repository's successful
results in completion order, then one `DONE` sentinel after all
repositories finish. -/
def pipeline_queue {α : Type} (repoResults : List (List (Option α))) : List (Option α) :=
  (repoResults.map process_repository_enqueue).flatten ++ [none]

/-! ## Specification-side definitions (used only in claim statements) -/

/-- The hunks of a diff section, as stated in the spec: each begins at
an `@@` marker and extends to the next marker or the end of input
(lines before the first marker belong to no hunk). -/
def hunkSegs : List String → List (List String)
  | [] => []
  | l :: ls =>
      if isHunkHdr l then
        (l :: ls.takeWhile (fun x => !isHunkHdr x)) :: hunkSegs (ls.dropWhile (fun x => !isHunkHdr x))
      else hunkSegs ls
  termination_by l => l.length
  decreasing_by
  · simp only [List.length_cons]
    exact Nat.lt_succ_of_le (List.dropWhile_suffix _).length_le
  · simp only [List.length_cons]; omega

/-- Whether a hunk (or pending hunk prefix) produced an addition. -/
def segHasAdd (s : List String) : Bool := s.any isAddLine

/-- Whether a hunk (or pending hunk prefix) produced a deletion. -/
def segHasDel (s : List String) : Bool := s.any isDelLine

/-- Contribution of one closed hunk to `hunks_added`. -/
def clsHA (a d : Bool) : Nat := if a && !d then 1 else 0

/-- Contribution of one closed hunk to `hunks_removed`. -/
def clsHR (a d : Bool) : Nat := if d && !a then 1 else 0

/-- Contribution of one closed hunk to `hunks_changed`. -/
def clsHC (a d : Bool) : Nat := if a && d then 1 else 0

/-- Total `hunks_added` contribution of a list of hunks. -/
def specSumHA (segs : List (List String)) : Nat :=
  (segs.map (fun s => clsHA (segHasAdd s) (segHasDel s))).sum

/-- Total `hunks_removed` contribution of a list of hunks. -/
def specSumHR (segs : List (List String)) : Nat :=
  (segs.map (fun s => clsHR (segHasAdd s) (segHasDel s))).sum

/-- Total `hunks_changed` contribution of a list of hunks. -/
def specSumHC (segs : List (List String)) : Nat :=
  (segs.map (fun s => clsHC (segHasAdd s) (segHasDel s))).sum

/-- The keys under which a parsed file change is registered in the
dictionary: its `path`, plus the `old_path` alias when that is truthy
and differs from `path` (the guard of lines 297-298). -/
def keysOf (fc : FileChange) : List (Option String) :=
  match fc.old_path with
  | some o => if o ≠ "" && fc.path ≠ some o then [fc.path, some o] else [fc.path]
  | none => [fc.path]

/-- Witness record for C1 (the empty-body commit `0\x00alice\x00\x00hi`). -/
def c1rec : CommitRecord :=
  assemble "h" "o" "r" "alice" "1970-01-01 00:00:00" "hi" [] []

/-- The file changes that the first pass parses out of a line list
(they do not depend on the accumulated state). -/
def newFCs (lines : List String) : List FileChange :=
  lines.filterMap fun l => if pyStartsWith l ":" then parse_file_change l else none

/-- All dictionary keys contributed by a store, in insertion order. -/
def allKeys (store : List FileChange) : List (Option String) :=
  (store.map keysOf).flatten

/-- The dictionary maps every record's `path` key — and its `old_path`
alias when registered — to that record's store index. -/
def DictConsistent (store : List FileChange) (d : Dict) : Prop :=
  ∀ i fc, store[i]? = some fc →
    dictGet d fc.path = some i ∧
    ∀ o, fc.old_path = some o → o ≠ "" → fc.path ≠ some o →
      dictGet d (some o) = some i

/-- Commit body of the C9 counterexample: a rename `o → x` followed by
a second descriptor line with the same final path `x`. -/
def c9body : List String :=
  [":100644 100644 ab cd R100 o\tx", ":100644 100644 ab cd M x"]

/-- The path data of a store (the fields `find_file_change_by_path`
inspects); diff analysis never changes it. -/
def pathPairs (store : List FileChange) : List (Option String × Option String) :=
  store.map fun fc => (fc.path, fc.old_path)

/-- Commit body of the C3 counterexample: one modified file `x` and
two diff sections both attributed to `x`. -/
def c3body : List String := [":100644 100644 ab cd M x",
  "diff --git a/x b/x", "+1",
  "diff --git a/x b/x", "@@ -1,0 +1,1 @@", "+2"]

/-- The record produced on `c3body` (the second `analyze_diff` write
overwrote the first: only section two's `+2` under its `@@` marker
survives in the counters). -/
def c3rec : CommitRecord :=
  { hash := "h", org := "o", repo := "r", author := "a",
    time := "1970-01-01 00:00:00", message := "m", merge := false,
    files_added := 0, files_deleted := 0, files_renamed := 0, files_modified := 1,
    lines_added := 1, lines_deleted := 0,
    hunks_added := 1, hunks_removed := 0, hunks_changed := 0,
    file_changes := [⟨"Modify", some "x", none, "", 1, 0, 1, 0, 0⟩] }

/-! ## Helper lemmas -/

theorem writerLoop_spec {α : Type} (bs : Nat) (hbs : 1 ≤ bs) (rs : List α)
    (junk : List (Option α)) :
    ∀ buf : List α, buf.length < bs →
      writerLoop bs (rs.map some ++ none :: junk) buf = buf ++ rs := by
  induction rs with
  | nil => intro buf _; simp [writerLoop]
  | cons r rs ih =>
      intro buf hbuf
      simp only [List.map_cons, List.cons_append, writerLoop, List.append_eq]
      by_cases hfull : bs ≤ (buf ++ [r]).length
      · rw [if_pos hfull, ih [] (by simpa using hbs)]
        simp
      · rw [if_neg hfull, ih (buf ++ [r]) (by simp at hfull ⊢; omega)]
        simp

theorem filter_isSome_eq_map_filterMap {α : Type} (rs : List (Option α)) :
    rs.filter (fun r => r.isSome) = (rs.filterMap id).map some := by
  induction rs with
  | nil => rfl
  | cons r rs ih => cases r <;> simp [ih]

/-! ## Claim C1 -/

/-- C1: for every input on which `get_commit_details` yields a record,
each aggregate counter of the record (`lines_added`, `lines_deleted`,
the three hunk counters, and the four per-type file counts) equals the
sum (respectively count) of the corresponding field over the record's
`file_changes` list. -/
theorem c1_aggregate_totals (tz rc : Int) (chash org repo stdout : String)
    (r : CommitRecord)
    (h : get_commit_details tz rc chash org repo stdout = .ok (some r)) :
    r.lines_added = (r.file_changes.map FileChange.lines_added).sum ∧
    r.lines_deleted = (r.file_changes.map FileChange.lines_deleted).sum ∧
    r.hunks_added = (r.file_changes.map FileChange.hunks_added).sum ∧
    r.hunks_removed = (r.file_changes.map FileChange.hunks_removed).sum ∧
    r.hunks_changed = (r.file_changes.map FileChange.hunks_changed).sum ∧
    r.files_added = (r.file_changes.filter (fun fc => fc.change_type = "Add")).length ∧
    r.files_deleted = (r.file_changes.filter (fun fc => fc.change_type = "Delete")).length ∧
    r.files_renamed = (r.file_changes.filter (fun fc => fc.change_type = "Rename")).length ∧
    r.files_modified = (r.file_changes.filter (fun fc => fc.change_type = "Modify")).length := by
  unfold get_commit_details at h
  split at h
  · exact absurd (Except.ok.inj h) (by simp)
  · cases hsplit : pySplitChar '\n' stdout with
    | nil => rw [hsplit] at h; exact absurd (Except.ok.inj h) (by simp [gcdCore])
    | cons l0 body =>
        rw [hsplit] at h
        simp only [gcdCore] at h
        split at h
        · exact absurd (Except.ok.inj h) (by simp)
        · split at h
          · exact absurd h (by simp)
          · split at h
            · exact absurd h (by simp)
            · have hr : r = assemble chash org repo _ _ _ _ (fileChangesOf body) :=
                (Option.some.inj (Except.ok.inj h)).symm
              subst hr
              simp [assemble]

/-- Witness for C1 at a concrete commit output. -/
theorem c1_aggregate_totals_witness :
    get_commit_details 0 0 "h" "o" "r" "0\u0000alice\u0000\u0000hi" = .ok (some c1rec) ∧
    (c1rec.lines_added = (c1rec.file_changes.map FileChange.lines_added).sum ∧
     c1rec.lines_deleted = (c1rec.file_changes.map FileChange.lines_deleted).sum ∧
     c1rec.hunks_added = (c1rec.file_changes.map FileChange.hunks_added).sum ∧
     c1rec.hunks_removed = (c1rec.file_changes.map FileChange.hunks_removed).sum ∧
     c1rec.hunks_changed = (c1rec.file_changes.map FileChange.hunks_changed).sum ∧
     c1rec.files_added = (c1rec.file_changes.filter (fun fc => fc.change_type = "Add")).length ∧
     c1rec.files_deleted = (c1rec.file_changes.filter (fun fc => fc.change_type = "Delete")).length ∧
     c1rec.files_renamed = (c1rec.file_changes.filter (fun fc => fc.change_type = "Rename")).length ∧
     c1rec.files_modified = (c1rec.file_changes.filter (fun fc => fc.change_type = "Modify")).length) :=
  ⟨by rfl, c1_aggregate_totals 0 0 "h" "o" "r" "0\u0000alice\u0000\u0000hi" c1rec (by rfl)⟩

/-! ## Claim C7 -/

/-- C7: for every finite record sequence followed by the end-of-stream
sentinel (and any further junk the writer never reads), and every
positive batch size, the writer writes exactly the received records,
each once, in arrival order: buffer flushes at the batch size and the
final flush on the sentinel together emit one output line per record. -/
theorem c7_writer_exact {α : Type} (records : List α) (junk : List (Option α))
    (bs : Nat) (hbs : 1 ≤ bs) :
    writer_process (records.map some ++ none :: junk) bs = records := by
  have := writerLoop_spec bs hbs records junk [] (by simpa using hbs)
  simpa [writer_process] using this

/-- Witness for C7: three records, batch size two. -/
theorem c7_writer_exact_witness :
    writer_process [some 1, some 2, some 3, none] 2 = [1, 2, 3] :=
  c7_writer_exact [1, 2, 3] [] 2 (by decide)

/-! ## Claim C10 -/

/-- C10: a failed commit (`get_commit_details` returned `None`) is
never placed on the result queue, so the flattened producer output
contains no `None`; the only `None` the writer receives is the final
sentinel, and the writer therefore writes every successful record of
every repository (it is never terminated early by a failed commit). -/
theorem c10_no_none_from_failures {α : Type}
    (repoResults : List (List (Option α))) (bs : Nat) (hbs : 1 ≤ bs) :
    (none ∉ (repoResults.map process_repository_enqueue).flatten) ∧
    writer_process (pipeline_queue repoResults) bs =
      (repoResults.map (fun rs => rs.filterMap id)).flatten := by
  constructor
  · intro hmem
    rcases List.mem_flatten.mp hmem with ⟨l, hl, hnone⟩
    rcases List.mem_map.mp hl with ⟨rs, _, rfl⟩
    have := List.mem_filter.mp hnone
    simpa using this.2
  · have hmaps : repoResults.map process_repository_enqueue =
        (repoResults.map (fun rs => rs.filterMap id)).map (List.map some) := by
      rw [List.map_map]
      apply List.map_congr_left
      intro rs _
      exact filter_isSome_eq_map_filterMap rs
    have hrw : (repoResults.map process_repository_enqueue).flatten =
        ((repoResults.map (fun rs => rs.filterMap id)).flatten).map some := by
      rw [hmaps, List.map_flatten]
    unfold pipeline_queue writer_process
    rw [hrw]
    have := writerLoop_spec bs hbs ((repoResults.map (fun rs => rs.filterMap id)).flatten)
      [] [] (by simpa using hbs)
    simpa using this

/-- Witness for C10: two repositories with one failed commit each. -/
theorem c10_no_none_from_failures_witness :
    ((none ∉ ([[some 1, none, some 2], [none, some 3]].map
        (process_repository_enqueue (α := Nat))).flatten)) ∧
    writer_process (pipeline_queue [[some 1, none, some 2], [none, some 3]]) 2 =
      ([[some 1, none, some 2], [none, some 3]].map
        (fun rs => rs.filterMap id)).flatten :=
  c10_no_none_from_failures [[some 1, none, some 2], [none, some 3]] 2 (by decide)

/-! ### Character-class and takeWhile helpers -/

theorem pyDigit_not_space (x : Char) (h : isPyDigit x = true) : isPySpace x = false := by
  cases hsp : isPySpace x
  · rfl
  · exfalso
    simp only [isPySpace, Bool.or_eq_true, decide_eq_true_eq] at hsp
    rcases hsp with ((((rfl | rfl) | rfl) | rfl) | rfl) | rfl <;> simp [isPyDigit] at h

theorem pyHex_not_space (x : Char) (h : isPyHex x = true) : isPySpace x = false := by
  cases hsp : isPySpace x
  · rfl
  · exfalso
    simp only [isPySpace, Bool.or_eq_true, decide_eq_true_eq] at hsp
    rcases hsp with ((((rfl | rfl) | rfl) | rfl) | rfl) | rfl <;> simp [isPyHex, isPyDigit] at h

theorem takeWhile_append_all (p : Char → Bool) (l1 l2 : List Char)
    (hall : ∀ c ∈ l1, p c = true) (hhd : ∀ c, l2.head? = some c → p c = false) :
    (l1 ++ l2).takeWhile p = l1 := by
  induction l1 with
  | nil =>
      cases l2 with
      | nil => rfl
      | cons c cs => simp [List.takeWhile_cons, hhd c rfl]
  | cons c l1 ih =>
      have hc : p c = true := hall c (by simp)
      simp [List.takeWhile_cons, hc, ih (fun x hx => hall x (by simp [hx]))]

theorem dropWhile_append_all (p : Char → Bool) (l1 l2 : List Char)
    (hall : ∀ c ∈ l1, p c = true) (hhd : ∀ c, l2.head? = some c → p c = false) :
    (l1 ++ l2).dropWhile p = l2 := by
  induction l1 with
  | nil =>
      cases l2 with
      | nil => rfl
      | cons c cs => simp [List.dropWhile_cons, hhd c rfl]
  | cons c l1 ih =>
      have hc : p c = true := hall c (by simp)
      simp [List.dropWhile_cons, hc, ih (fun x hx => hall x (by simp [hx]))]

theorem takeWhile1_append (p : Char → Bool) (l1 l2 : List Char) (h1 : l1 ≠ [])
    (hall : ∀ c ∈ l1, p c = true) (hhd : ∀ c, l2.head? = some c → p c = false) :
    takeWhile1 p (l1 ++ l2) = some (l1, l2) := by
  unfold takeWhile1
  rw [takeWhile_append_all p l1 l2 hall hhd, dropWhile_append_all p l1 l2 hall hhd]
  cases l1 with
  | nil => exact absurd rfl h1
  | cons c cs => rfl

/-! ## Claim C2 -/

/-- C2 counterexample: a descriptor line whose status letter `X` is
not in `{A, D, M, R, C, T}` does not produce a `Modify` record — the
regex class `([ADMRCT])` rejects the line outright and
`parse_file_change` returns `None` (the `Modify` default of
`change_type_map.get` is unreachable). -/
theorem c2_unrecognized_status_counterexample :
    parse_file_change ":100644 100644 abc123 def456 X100 file.txt" = none := by
  rfl

/-- C2 amended: for every well-formed change descriptor line whose
status letter is not one of `A, D, M, R, C, T`, `parse_file_change`
rejects the line and returns `None` — the entry is skipped, never
defaulted to `Modify`. -/
theorem c2_amended_unrecognized_status_rejected
    (m1 m2 s1 s2 : List Char) (c : Char) (rest : List Char)
    (hm1 : m1 ≠ []) (hm1d : ∀ x ∈ m1, isPyDigit x = true)
    (hm2 : m2 ≠ []) (hm2d : ∀ x ∈ m2, isPyDigit x = true)
    (hs1 : s1 ≠ []) (hs1h : ∀ x ∈ s1, isPyHex x = true)
    (hs2 : s2 ≠ []) (hs2h : ∀ x ∈ s2, isPyHex x = true)
    (hcs : isPySpace c = false) (hcstat : isStatusChar c = false) :
    parse_file_change (String.mk (':' :: (m1 ++ ' ' ::
      (m2 ++ ' ' :: (s1 ++ ' ' :: (s2 ++ ' ' :: c :: rest)))))) = none := by
  have hsp : isPySpace ' ' = true := by decide
  have hd1 : takeWhile1 isPyDigit (m1 ++ ' ' :: (m2 ++ ' ' :: (s1 ++ ' ' :: (s2 ++ ' ' :: c :: rest))))
      = some (m1, ' ' :: (m2 ++ ' ' :: (s1 ++ ' ' :: (s2 ++ ' ' :: c :: rest)))) :=
    takeWhile1_append _ _ _ hm1 hm1d (by intro x hx; cases hx; decide)
  obtain ⟨d2, m2t, rfl⟩ : ∃ d t, m2 = d :: t := by
    cases m2 with
    | nil => exact absurd rfl hm2
    | cons d t => exact ⟨d, t, rfl⟩
  have hw1 : takeWhile1 isPySpace (' ' :: ((d2 :: m2t) ++ ' ' :: (s1 ++ ' ' :: (s2 ++ ' ' :: c :: rest))))
      = some ([' '], (d2 :: m2t) ++ ' ' :: (s1 ++ ' ' :: (s2 ++ ' ' :: c :: rest))) := by
    have := takeWhile1_append isPySpace [' ']
      ((d2 :: m2t) ++ ' ' :: (s1 ++ ' ' :: (s2 ++ ' ' :: c :: rest)))
      (by simp) (by intro x hx; simp at hx; subst hx; decide)
      (by intro x hx; simp at hx; subst hx
          exact pyDigit_not_space d2 (hm2d d2 (by simp)))
    simpa using this
  have hd2 : takeWhile1 isPyDigit ((d2 :: m2t) ++ ' ' :: (s1 ++ ' ' :: (s2 ++ ' ' :: c :: rest)))
      = some (d2 :: m2t, ' ' :: (s1 ++ ' ' :: (s2 ++ ' ' :: c :: rest))) :=
    takeWhile1_append _ _ _ (by simp) hm2d (by intro x hx; cases hx; decide)
  obtain ⟨h1c, s1t, rfl⟩ : ∃ d t, s1 = d :: t := by
    cases s1 with
    | nil => exact absurd rfl hs1
    | cons d t => exact ⟨d, t, rfl⟩
  have hw2 : takeWhile1 isPySpace (' ' :: ((h1c :: s1t) ++ ' ' :: (s2 ++ ' ' :: c :: rest)))
      = some ([' '], (h1c :: s1t) ++ ' ' :: (s2 ++ ' ' :: c :: rest)) := by
    have := takeWhile1_append isPySpace [' ']
      ((h1c :: s1t) ++ ' ' :: (s2 ++ ' ' :: c :: rest))
      (by simp) (by intro x hx; simp at hx; subst hx; decide)
      (by intro x hx; simp at hx; subst hx
          exact pyHex_not_space h1c (hs1h h1c (by simp)))
    simpa using this
  have hx1 : takeWhile1 isPyHex ((h1c :: s1t) ++ ' ' :: (s2 ++ ' ' :: c :: rest))
      = some (h1c :: s1t, ' ' :: (s2 ++ ' ' :: c :: rest)) :=
    takeWhile1_append _ _ _ (by simp) hs1h (by intro x hx; cases hx; decide)
  obtain ⟨h2c, s2t, rfl⟩ : ∃ d t, s2 = d :: t := by
    cases s2 with
    | nil => exact absurd rfl hs2
    | cons d t => exact ⟨d, t, rfl⟩
  have hw3 : takeWhile1 isPySpace (' ' :: ((h2c :: s2t) ++ ' ' :: c :: rest))
      = some ([' '], (h2c :: s2t) ++ ' ' :: c :: rest) := by
    have := takeWhile1_append isPySpace [' '] ((h2c :: s2t) ++ ' ' :: c :: rest)
      (by simp) (by intro x hx; simp at hx; subst hx; decide)
      (by intro x hx; simp at hx; subst hx
          exact pyHex_not_space h2c (hs2h h2c (by simp)))
    simpa using this
  have hx2 : takeWhile1 isPyHex ((h2c :: s2t) ++ ' ' :: c :: rest)
      = some (h2c :: s2t, ' ' :: c :: rest) :=
    takeWhile1_append _ _ _ (by simp) hs2h (by intro x hx; cases hx; decide)
  have hw4 : takeWhile1 isPySpace (' ' :: c :: rest) = some ([' '], c :: rest) := by
    have := takeWhile1_append isPySpace [' '] (c :: rest)
      (by simp) (by intro x hx; simp at hx; subst hx; decide)
      (by intro x hx; simp at hx; subst hx; exact hcs)
    simpa using this
  simp only [parse_file_change, hd1, hw1, hd2, hw2, hx1, hw3, hx2, hw4,
    Option.bind_eq_bind, Option.some_bind, hcstat, Bool.false_eq_true, if_false,
    Option.none_bind]

/-- Witness for the amended C2 at a concrete descriptor line with
status letter `X`. -/
theorem c2_amended_unrecognized_status_rejected_witness :
    parse_file_change (String.mk (':' :: (['1'] ++ ' ' ::
      (['1'] ++ ' ' :: (['a'] ++ ' ' :: (['b'] ++ ' ' :: 'X' :: [' ', 'f'])))))) = none :=
  c2_amended_unrecognized_status_rejected ['1'] ['1'] ['a'] ['b'] 'X' [' ', 'f']
    (by decide) (by decide) (by decide) (by decide) (by decide) (by decide)
    (by decide) (by decide) (by decide) (by decide)

/-! ## Claim C4 -/

theorem pyStartsWith_head (l pre : String) (c : Char) (t : List Char)
    (hpre : pre.data = c :: t) (h : pyStartsWith l pre = true) :
    ∃ r, l.data = c :: r := by
  unfold pyStartsWith at h
  rw [hpre] at h
  cases hd : l.data with
  | nil => rw [hd] at h; simp [List.isPrefixOf] at h
  | cons a r =>
      rw [hd] at h
      simp [List.isPrefixOf] at h
      exact ⟨r, by rw [h.1]⟩

theorem hunkHdr_not_add (l : String) (h : isHunkHdr l = true) : isAddLine l = false := by
  obtain ⟨r, hr⟩ := pyStartsWith_head l "@@" '@' ['@'] rfl h
  simp [isAddLine, pyStartsWith, hr, List.isPrefixOf]

theorem hunkHdr_not_del (l : String) (h : isHunkHdr l = true) : isDelLine l = false := by
  obtain ⟨r, hr⟩ := pyStartsWith_head l "@@" '@' ['@'] rfl h
  simp [isDelLine, pyStartsWith, hr, List.isPrefixOf]

theorem addLine_not_del (l : String) (h : isAddLine l = true) : isDelLine l = false := by
  have h1 : pyStartsWith l "+" = true := by
    simp [isAddLine] at h; exact h.1
  obtain ⟨r, hr⟩ := pyStartsWith_head l "+" '+' [] rfl h1
  simp [isDelLine, pyStartsWith, hr, List.isPrefixOf]

theorem adClose_ha (st : ADState) : (adClose st).ha = st.ha + clsHA st.hasA st.hasD := by
  obtain ⟨la, ld, ha, hr, hc, ih, a, d⟩ := st
  cases a <;> cases d <;> simp [adClose, clsHA]

theorem adClose_hr (st : ADState) : (adClose st).hr = st.hr + clsHR st.hasA st.hasD := by
  obtain ⟨la, ld, ha, hr, hc, ih, a, d⟩ := st
  cases a <;> cases d <;> simp [adClose, clsHR]

theorem adClose_hc (st : ADState) : (adClose st).hc = st.hc + clsHC st.hasA st.hasD := by
  obtain ⟨la, ld, ha, hr, hc, ih, a, d⟩ := st
  cases a <;> cases d <;> simp [adClose, clsHC]

theorem adClose_la (st : ADState) : (adClose st).la = st.la := by
  obtain ⟨la, ld, ha, hr, hc, ih, a, d⟩ := st
  cases a <;> cases d <;> simp [adClose]

theorem adClose_ld (st : ADState) : (adClose st).ld = st.ld := by
  obtain ⟨la, ld, ha, hr, hc, ih, a, d⟩ := st
  cases a <;> cases d <;> simp [adClose]

/-- Behaviour of the `analyze_diff` loop started inside an open hunk
with pending flags: line counts accumulate; the open hunk is closed
with its pending flags merged with the remainder of the current
segment, and every later segment is classified on its own. -/
theorem adLoop_open (ls : List String) : ∀ st : ADState, st.in_hunk = true →
    (adFinish (ls.foldl adStep st)).la = st.la + ls.countP isAddLine ∧
    (adFinish (ls.foldl adStep st)).ld = st.ld + ls.countP isDelLine ∧
    (adFinish (ls.foldl adStep st)).ha = st.ha +
      clsHA (st.hasA || segHasAdd (ls.takeWhile (fun x => !isHunkHdr x)))
            (st.hasD || segHasDel (ls.takeWhile (fun x => !isHunkHdr x))) +
      specSumHA (hunkSegs (ls.dropWhile (fun x => !isHunkHdr x))) ∧
    (adFinish (ls.foldl adStep st)).hr = st.hr +
      clsHR (st.hasA || segHasAdd (ls.takeWhile (fun x => !isHunkHdr x)))
            (st.hasD || segHasDel (ls.takeWhile (fun x => !isHunkHdr x))) +
      specSumHR (hunkSegs (ls.dropWhile (fun x => !isHunkHdr x))) ∧
    (adFinish (ls.foldl adStep st)).hc = st.hc +
      clsHC (st.hasA || segHasAdd (ls.takeWhile (fun x => !isHunkHdr x)))
            (st.hasD || segHasDel (ls.takeWhile (fun x => !isHunkHdr x))) +
      specSumHC (hunkSegs (ls.dropWhile (fun x => !isHunkHdr x))) := by
  induction ls with
  | nil =>
      intro st hin
      simp [adFinish, hin, adClose_la, adClose_ld, adClose_ha, adClose_hr, adClose_hc,
        segHasAdd, segHasDel, hunkSegs, specSumHA, specSumHR, specSumHC]
  | cons l ls ih =>
      intro st hin
      by_cases hl : isHunkHdr l = true
      · have hstep : adStep st l =
            ⟨(adClose st).la, (adClose st).ld, (adClose st).ha, (adClose st).hr,
              (adClose st).hc, true, false, false⟩ := by
          simp [adStep, hl, hin]
        have ihres := ih ⟨(adClose st).la, (adClose st).ld, (adClose st).ha, (adClose st).hr,
          (adClose st).hc, true, false, false⟩ rfl
        have htw : (l :: ls).takeWhile (fun x => !isHunkHdr x) = [] := by
          simp [List.takeWhile_cons, hl]
        have hdw : (l :: ls).dropWhile (fun x => !isHunkHdr x) = l :: ls := by
          simp [List.dropWhile_cons, hl]
        have hsegs : hunkSegs (l :: ls) =
            (l :: ls.takeWhile (fun x => !isHunkHdr x)) ::
              hunkSegs (ls.dropWhile (fun x => !isHunkHdr x)) := by
          simp [hunkSegs, hl]
        have hsegA : (l :: ls.takeWhile (fun x => !isHunkHdr x)).any isAddLine =
            (ls.takeWhile (fun x => !isHunkHdr x)).any isAddLine := by
          simp [hunkHdr_not_add l hl]
        have hsegD : (l :: ls.takeWhile (fun x => !isHunkHdr x)).any isDelLine =
            (ls.takeWhile (fun x => !isHunkHdr x)).any isDelLine := by
          simp [hunkHdr_not_del l hl]
        have hcp : ∀ p : String → Bool, (l :: ls).countP p = ls.countP p + if p l then 1 else 0 := by
          intro p; rw [List.countP_cons]
        refine ⟨?_, ?_, ?_, ?_, ?_⟩ <;> rw [List.foldl_cons, hstep]
        · rcases ihres with ⟨h1, _⟩
          rw [h1, hcp]
          simp [adClose_la, hunkHdr_not_add l hl]
        · rcases ihres with ⟨_, h2, _⟩
          rw [h2, hcp]
          simp [adClose_ld, hunkHdr_not_del l hl]
        · rcases ihres with ⟨_, _, h3, _⟩
          rw [h3, htw, hdw, hsegs]
          simp [specSumHA, segHasAdd, segHasDel, adClose_ha, hsegA, hsegD]
          omega
        · rcases ihres with ⟨_, _, _, h4, _⟩
          rw [h4, htw, hdw, hsegs]
          simp [specSumHR, segHasAdd, segHasDel, adClose_hr, hsegA, hsegD]
          omega
        · rcases ihres with ⟨_, _, _, _, h5⟩
          rw [h5, htw, hdw, hsegs]
          simp [specSumHC, segHasAdd, segHasDel, adClose_hc, hsegA, hsegD]
          omega
      · have hl2 : isHunkHdr l = false := by simpa using hl
        have htw : (l :: ls).takeWhile (fun x => !isHunkHdr x) =
            l :: ls.takeWhile (fun x => !isHunkHdr x) := by
          simp [List.takeWhile_cons, hl2]
        have hdw : (l :: ls).dropWhile (fun x => !isHunkHdr x) =
            ls.dropWhile (fun x => !isHunkHdr x) := by
          simp [List.dropWhile_cons, hl2]
        by_cases ha : isAddLine l = true
        · have hstep : adStep st l = { st with la := st.la + 1, hasA := true } := by
            simp [adStep, hl2, ha]
          have ihres := ih { st with la := st.la + 1, hasA := true } hin
          have hnd : isDelLine l = false := addLine_not_del l ha
          refine ⟨?_, ?_, ?_, ?_, ?_⟩ <;> rw [List.foldl_cons, hstep]
          · rcases ihres with ⟨h1, _⟩
            rw [h1, List.countP_cons]
            simp [ha]
            omega
          · rcases ihres with ⟨_, h2, _⟩
            rw [h2, List.countP_cons]
            simp [hnd]
          · rcases ihres with ⟨_, _, h3, _⟩
            rw [h3, htw, hdw]
            simp [segHasAdd, segHasDel, ha, hnd]
          · rcases ihres with ⟨_, _, _, h4, _⟩
            rw [h4, htw, hdw]
            simp [segHasAdd, segHasDel, ha, hnd]
          · rcases ihres with ⟨_, _, _, _, h5⟩
            rw [h5, htw, hdw]
            simp [segHasAdd, segHasDel, ha, hnd]
        · have ha2 : isAddLine l = false := by simpa using ha
          by_cases hd : isDelLine l = true
          · have hstep : adStep st l = { st with ld := st.ld + 1, hasD := true } := by
              simp [adStep, hl2, ha2, hd]
            have ihres := ih { st with ld := st.ld + 1, hasD := true } hin
            refine ⟨?_, ?_, ?_, ?_, ?_⟩ <;> rw [List.foldl_cons, hstep]
            · rcases ihres with ⟨h1, _⟩
              rw [h1, List.countP_cons]
              simp [ha2]
            · rcases ihres with ⟨_, h2, _⟩
              rw [h2, List.countP_cons]
              simp [hd]
              omega
            · rcases ihres with ⟨_, _, h3, _⟩
              rw [h3, htw, hdw]
              simp [segHasAdd, segHasDel, ha2, hd]
            · rcases ihres with ⟨_, _, _, h4, _⟩
              rw [h4, htw, hdw]
              simp [segHasAdd, segHasDel, ha2, hd]
            · rcases ihres with ⟨_, _, _, _, h5⟩
              rw [h5, htw, hdw]
              simp [segHasAdd, segHasDel, ha2, hd]
          · have hd2 : isDelLine l = false := by simpa using hd
            have hstep : adStep st l = st := by
              simp [adStep, hl2, ha2, hd2]
            have ihres := ih st hin
            refine ⟨?_, ?_, ?_, ?_, ?_⟩ <;> rw [List.foldl_cons, hstep]
            · rcases ihres with ⟨h1, _⟩
              rw [h1, List.countP_cons]
              simp [ha2]
            · rcases ihres with ⟨_, h2, _⟩
              rw [h2, List.countP_cons]
              simp [hd2]
            · rcases ihres with ⟨_, _, h3, _⟩
              rw [h3, htw, hdw]
              simp [segHasAdd, segHasDel, ha2, hd2]
            · rcases ihres with ⟨_, _, _, h4, _⟩
              rw [h4, htw, hdw]
              simp [segHasAdd, segHasDel, ha2, hd2]
            · rcases ihres with ⟨_, _, _, _, h5⟩
              rw [h5, htw, hdw]
              simp [segHasAdd, segHasDel, ha2, hd2]

/-- Behaviour of the `analyze_diff` loop started outside any hunk:
line counts accumulate and every segment beginning at an `@@` marker
is classified on its own; the pending flags are irrelevant (they are
reset, unused, at the first marker). -/
theorem adLoop_closed (ls : List String) : ∀ st : ADState, st.in_hunk = false →
    (adFinish (ls.foldl adStep st)).la = st.la + ls.countP isAddLine ∧
    (adFinish (ls.foldl adStep st)).ld = st.ld + ls.countP isDelLine ∧
    (adFinish (ls.foldl adStep st)).ha = st.ha + specSumHA (hunkSegs ls) ∧
    (adFinish (ls.foldl adStep st)).hr = st.hr + specSumHR (hunkSegs ls) ∧
    (adFinish (ls.foldl adStep st)).hc = st.hc + specSumHC (hunkSegs ls) := by
  induction ls with
  | nil =>
      intro st hin
      simp [adFinish, hin, hunkSegs, specSumHA, specSumHR, specSumHC]
  | cons l ls ih =>
      intro st hin
      by_cases hl : isHunkHdr l = true
      · have hstep : adStep st l =
            ⟨st.la, st.ld, st.ha, st.hr, st.hc, true, false, false⟩ := by
          simp [adStep, hl, hin]
        have op := adLoop_open ls ⟨st.la, st.ld, st.ha, st.hr, st.hc, true, false, false⟩ rfl
        have hsegs : hunkSegs (l :: ls) =
            (l :: ls.takeWhile (fun x => !isHunkHdr x)) ::
              hunkSegs (ls.dropWhile (fun x => !isHunkHdr x)) := by
          simp [hunkSegs, hl]
        have hsegA : (l :: ls.takeWhile (fun x => !isHunkHdr x)).any isAddLine =
            (ls.takeWhile (fun x => !isHunkHdr x)).any isAddLine := by
          simp [hunkHdr_not_add l hl]
        have hsegD : (l :: ls.takeWhile (fun x => !isHunkHdr x)).any isDelLine =
            (ls.takeWhile (fun x => !isHunkHdr x)).any isDelLine := by
          simp [hunkHdr_not_del l hl]
        refine ⟨?_, ?_, ?_, ?_, ?_⟩ <;> rw [List.foldl_cons, hstep]
        · rcases op with ⟨h1, _⟩
          rw [h1, List.countP_cons]
          simp [hunkHdr_not_add l hl]
        · rcases op with ⟨_, h2, _⟩
          rw [h2, List.countP_cons]
          simp [hunkHdr_not_del l hl]
        · rcases op with ⟨_, _, h3, _⟩
          rw [h3, hsegs]
          simp [specSumHA, segHasAdd, segHasDel, hsegA, hsegD]
          omega
        · rcases op with ⟨_, _, _, h4, _⟩
          rw [h4, hsegs]
          simp [specSumHR, segHasAdd, segHasDel, hsegA, hsegD]
          omega
        · rcases op with ⟨_, _, _, _, h5⟩
          rw [h5, hsegs]
          simp [specSumHC, segHasAdd, segHasDel, hsegA, hsegD]
          omega
      · have hl2 : isHunkHdr l = false := by simpa using hl
        have hsegs : hunkSegs (l :: ls) = hunkSegs ls := by
          simp [hunkSegs, hl2]
        by_cases ha : isAddLine l = true
        · have hstep : adStep st l = { st with la := st.la + 1, hasA := true } := by
            simp [adStep, hl2, ha]
          have ihres := ih { st with la := st.la + 1, hasA := true } hin
          refine ⟨?_, ?_, ?_, ?_, ?_⟩ <;> rw [List.foldl_cons, hstep]
          · rcases ihres with ⟨h1, _⟩
            rw [h1, List.countP_cons]
            simp [ha]
            omega
          · rcases ihres with ⟨_, h2, _⟩
            rw [h2, List.countP_cons]
            simp [addLine_not_del l ha]
          · rcases ihres with ⟨_, _, h3, _⟩
            rw [hsegs, h3]
          · rcases ihres with ⟨_, _, _, h4, _⟩
            rw [hsegs, h4]
          · rcases ihres with ⟨_, _, _, _, h5⟩
            rw [hsegs, h5]
        · have ha2 : isAddLine l = false := by simpa using ha
          by_cases hd : isDelLine l = true
          · have hstep : adStep st l = { st with ld := st.ld + 1, hasD := true } := by
              simp [adStep, hl2, ha2, hd]
            have ihres := ih { st with ld := st.ld + 1, hasD := true } hin
            refine ⟨?_, ?_, ?_, ?_, ?_⟩ <;> rw [List.foldl_cons, hstep]
            · rcases ihres with ⟨h1, _⟩
              rw [h1, List.countP_cons]
              simp [ha2]
            · rcases ihres with ⟨_, h2, _⟩
              rw [h2, List.countP_cons]
              simp [hd]
              omega
            · rcases ihres with ⟨_, _, h3, _⟩
              rw [hsegs, h3]
            · rcases ihres with ⟨_, _, _, h4, _⟩
              rw [hsegs, h4]
            · rcases ihres with ⟨_, _, _, _, h5⟩
              rw [hsegs, h5]
          · have hd2 : isDelLine l = false := by simpa using hd
            have hstep : adStep st l = st := by
              simp [adStep, hl2, ha2, hd2]
            have ihres := ih st hin
            refine ⟨?_, ?_, ?_, ?_, ?_⟩ <;> rw [List.foldl_cons, hstep]
            · rcases ihres with ⟨h1, _⟩
              rw [h1, List.countP_cons]
              simp [ha2]
            · rcases ihres with ⟨_, h2, _⟩
              rw [h2, List.countP_cons]
              simp [hd2]
            · rcases ihres with ⟨_, _, h3, _⟩
              rw [hsegs, h3]
            · rcases ihres with ⟨_, _, _, h4, _⟩
              rw [hsegs, h4]
            · rcases ihres with ⟨_, _, _, _, h5⟩
              rw [hsegs, h5]

theorem specSumHA_eq_countP (segs : List (List String)) :
    specSumHA segs = segs.countP (fun s => s.any isAddLine && !s.any isDelLine) := by
  induction segs with
  | nil => rfl
  | cons s segs ih =>
      simp only [specSumHA, List.map_cons, List.sum_cons, List.countP_cons] at ih ⊢
      rw [ih]
      simp only [clsHA, segHasAdd, segHasDel]
      split <;> omega

theorem specSumHR_eq_countP (segs : List (List String)) :
    specSumHR segs = segs.countP (fun s => s.any isDelLine && !s.any isAddLine) := by
  induction segs with
  | nil => rfl
  | cons s segs ih =>
      simp only [specSumHR, List.map_cons, List.sum_cons, List.countP_cons] at ih ⊢
      rw [ih]
      simp only [clsHR, segHasAdd, segHasDel]
      split <;> omega

theorem specSumHC_eq_countP (segs : List (List String)) :
    specSumHC segs = segs.countP (fun s => s.any isAddLine && s.any isDelLine) := by
  induction segs with
  | nil => rfl
  | cons s segs ih =>
      simp only [specSumHC, List.map_cons, List.sum_cons, List.countP_cons] at ih ⊢
      rw [ih]
      simp only [clsHC, segHasAdd, segHasDel]
      split <;> omega

/-- C4: `analyze_diff` sets `lines_added` to the number of lines
beginning with `+` but not `+++`, `lines_deleted` to the number of
lines beginning with `-` but not `---`, and classifies every hunk
(the segments delimited by `@@` markers or the end of input) exactly
once: into `hunks_changed` when it has both additions and deletions,
`hunks_added` when it has only additions, `hunks_removed` when it has
only deletions, and into no counter when it has neither. -/
theorem c4_analyze_diff_spec (ls : List String) (fc : FileChange) :
    (analyze_diff ls fc).lines_added = ls.countP isAddLine ∧
    (analyze_diff ls fc).lines_deleted = ls.countP isDelLine ∧
    (analyze_diff ls fc).hunks_added =
      (hunkSegs ls).countP (fun s => s.any isAddLine && !s.any isDelLine) ∧
    (analyze_diff ls fc).hunks_removed =
      (hunkSegs ls).countP (fun s => s.any isDelLine && !s.any isAddLine) ∧
    (analyze_diff ls fc).hunks_changed =
      (hunkSegs ls).countP (fun s => s.any isAddLine && s.any isDelLine) := by
  obtain ⟨h1, h2, h3, h4, h5⟩ := adLoop_closed ls ⟨0, 0, 0, 0, 0, false, false, false⟩ rfl
  refine ⟨?_, ?_, ?_, ?_, ?_⟩ <;> simp only [analyze_diff, adRun]
  · rw [h1]; simp
  · rw [h2]; simp
  · rw [h3, specSumHA_eq_countP]; simp
  · rw [h4, specSumHR_eq_countP]; simp
  · rw [h5, specSumHC_eq_countP]; simp

/-! ## Claim C6 -/

theorem isPrefixOf_append_self (l1 l2 : List Char) : (l1.isPrefixOf (l1 ++ l2)) = true := by
  induction l1 with
  | nil => simp [List.isPrefixOf]
  | cons c cs ih => simp [List.isPrefixOf, ih]

theorem pyStartsWith_append (pre rest : String) : pyStartsWith (pre ++ rest) pre = true := by
  unfold pyStartsWith
  rw [String.data_append]
  exact isPrefixOf_append_self pre.data rest.data

theorem mk_data_eq (s : String) : String.mk s.data = s := rfl

/-- C6: for every diff-section header line that names an `a` path and
a `b` path (whitespace-split tokens `a/<pa>` and `b/<pb>` at positions
2 and 3), the attribution path is the `b` path, unless the `b` path is
`/dev/null` (no file after the change), in which case the `a` path is
used. -/
theorem c6_attribution_prefers_b_path (line pa pb : String)
    (hlen : 4 ≤ (pysplit line).length)
    (h2 : (pysplit line).getD 2 "" = "a/" ++ pa)
    (h3 : (pysplit line).getD 3 "" = "b/" ++ pb)
    (hpa : pa ≠ "") (hpb : pb ≠ "") :
    (pb ≠ "/dev/null" → diffHeaderPath line = some pb) ∧
    (pb = "/dev/null" → pa ≠ "/dev/null" → diffHeaderPath line = some pa) := by
  have hpaeq : String.mk (("a/" ++ pa).data.drop 2) = pa := by
    rw [String.data_append]
    rfl
  have hpbeq : String.mk (("b/" ++ pb).data.drop 2) = pb := by
    rw [String.data_append]
    rfl
  constructor
  · intro hnd
    simp only [diffHeaderPath, h2, h3, if_pos hlen, pyStartsWith_append, if_pos,
      hpaeq, hpbeq]
    simp [hpb, hnd]
  · intro hd hnd
    simp only [diffHeaderPath, h2, h3, if_pos hlen, pyStartsWith_append, if_pos,
      hpaeq, hpbeq]
    simp [hpb, hpa, hd, hnd]

/-- Witness for C6 at two concrete header lines (ordinary rename
header, and a header whose `b` path is `/dev/null`). -/
theorem c6_attribution_prefers_b_path_witness :
    diffHeaderPath "diff --git a/old.txt b/new.txt" = some "new.txt" ∧
    diffHeaderPath "diff --git a/old.txt b//dev/null" = some "old.txt" :=
  ⟨(c6_attribution_prefers_b_path "diff --git a/old.txt b/new.txt" "old.txt" "new.txt"
      (by decide) (by decide) (by decide) (by decide) (by decide)).1 (by decide),
   (c6_attribution_prefers_b_path "diff --git a/old.txt b//dev/null" "old.txt" "/dev/null"
      (by decide) (by decide) (by decide) (by decide) (by decide)).2 rfl (by decide)⟩

/-! ## Claim C3 -/

/-- C3 counterexample: an input whose two diff sections are both
attributed to the same FileChange (store index 0).  The commit is
processed into a record, yet diff analysis writes the five counters of
that FileChange twice (`analyzeTrace = [0, 0]`), the second write
overwriting the first — refuting "written at most once, then never
mutated again". -/
theorem c3_write_once_counterexample :
    analyzeTrace c3body = [0, 0] ∧
    (analyzeTrace c3body).count 0 = 2 ∧
    gcdCore 0 "h" "o" "r" ("0\u0000a\u0000\u0000m" :: c3body) = .ok (some c3rec) :=
  ⟨rfl, rfl, rfl⟩

theorem flushSection_trace_len (s : S2) :
    (flushSection s).trace.length ≤ s.trace.length + (if s.cur.isSome then 1 else 0) := by
  obtain ⟨cur, curLines, store, d, trace⟩ := s
  cases cur with
  | none => simp [flushSection]
  | some p =>
      simp only [flushSection, Option.isSome]
      split
      · split
        · split
          · simp
          · simp
        · simp
      · simp

theorem pass2Step_measure (s : S2) (l : String) :
    (pass2Step s l).trace.length + (if (pass2Step s l).cur.isSome then 1 else 0) ≤
      s.trace.length + (if s.cur.isSome then 1 else 0) +
        (if pyStartsWith l "diff --git" then 1 else 0) := by
  unfold pass2Step
  split
  · omega
  · split
    · have hf := flushSection_trace_len s
      simp only
      split <;> simp <;> omega
    · split
      · split
        · split
          · split <;> simp
          · omega
        · omega
      · omega

theorem pass2_fold_measure (body : List String) : ∀ s : S2,
    (body.foldl pass2Step s).trace.length +
        (if (body.foldl pass2Step s).cur.isSome then 1 else 0) ≤
      s.trace.length + (if s.cur.isSome then 1 else 0) +
        body.countP (fun l => pyStartsWith l "diff --git") := by
  induction body with
  | nil => intro s; simp
  | cons l ls ih =>
      intro s
      rw [List.foldl_cons, List.countP_cons]
      have h1 := pass2Step_measure s l
      have h2 := ih (pass2Step s l)
      omega

/-- C3 amended: the five counters of a FileChange are written by
`analyze_diff` once per diff section attributed to it, hence at most
once per `diff --git` header line of the commit body; on real
`git show` output, which emits at most one diff section per file, this
is the claimed "at most once per FileChange". -/
theorem c3_amended_writes_bounded_by_headers (store : List FileChange) (d : Dict)
    (body : List String) (i : Nat) :
    ((pass2 store d body).trace.count i) ≤
      body.countP (fun l => pyStartsWith l "diff --git") := by
  have h1 : ((pass2 store d body).trace.count i) ≤ (pass2 store d body).trace.length :=
    List.count_le_length i _
  have h2 := flushSection_trace_len (body.foldl pass2Step ⟨none, [], store, d, []⟩)
  have h3 := pass2_fold_measure body ⟨none, [], store, d, []⟩
  simp only [pass2] at h1 ⊢
  simp at h3
  omega

/-! ## Claim C8 -/

/-- C8 counterexample: a raw commit text whose first line has four
null-separated fields but a non-integer timestamp field.  The claim
says a record is returned; the code instead raises `ValueError` from
`int(header_parts[0])` (modelled as `.error`), so no record is
produced. -/
theorem c8_nonint_timestamp_counterexample :
    (pySplitChar '\u0000' "x\u0000a\u0000\u0000m").length = 4 ∧
    gcdCore 0 "h" "o" "r" ["x\u0000a\u0000\u0000m"] = .error "ValueError" :=
  ⟨rfl, rfl⟩

/-- C8 amended: a commit whose first line splits into fewer than four
null-separated fields is dropped (no record); with at least four
fields, *provided the timestamp field parses as an integer and is
representable as a local time*, the record carries the formatted local
timestamp, the author field, the subject field as `message`, and the
space-split parent list (used for the `merge` flag, the only place the
parents appear in the record). -/
theorem c8_amended_header_parse (tz : Int) (chash org repo l0 : String)
    (body : List String) :
    ((pySplitChar '\u0000' l0).length < 4 →
      gcdCore tz chash org repo (l0 :: body) = .ok none) ∧
    (∀ ts dt, pyInt ((pySplitChar '\u0000' l0).getD 0 "") = some ts →
      fromtimestamp tz ts = some dt →
      4 ≤ (pySplitChar '\u0000' l0).length →
      gcdCore tz chash org repo (l0 :: body) = .ok (some (assemble chash org repo
        ((pySplitChar '\u0000' l0).getD 1 "") (fmtDT dt)
        ((pySplitChar '\u0000' l0).getD 3 "")
        (if (pySplitChar '\u0000' l0).getD 2 "" = "" then []
         else pysplit ((pySplitChar '\u0000' l0).getD 2 ""))
        (fileChangesOf body)))) := by
  constructor
  · intro hlt
    simp only [gcdCore]
    rw [if_pos hlt]
  · intro ts dt hts hdt hge
    simp only [gcdCore]
    rw [if_neg (by omega)]
    simp only [hts, hdt]

/-- Witness for the amended C8: a two-field header is dropped; a
four-field header with timestamp `0` and two parents yields the
assembled record. -/
theorem c8_amended_header_parse_witness :
    gcdCore 0 "h" "o" "r" ["a\u0000b"] = .ok none ∧
    gcdCore 0 "h" "o" "r" ["0\u0000alice\u0000p1 p2\u0000hi"] =
      .ok (some (assemble "h" "o" "r" "alice" "1970-01-01 00:00:00" "hi"
        ["p1", "p2"] [])) :=
  ⟨(c8_amended_header_parse 0 "h" "o" "r" "a\u0000b" []).1 (by decide),
   (c8_amended_header_parse 0 "h" "o" "r" "0\u0000alice\u0000p1 p2\u0000hi" []).2
     0 (1970, 1, 1, 0, 0, 0) (by decide) (by decide) (by decide)⟩

/-! ## Claim C5 -/

theorem dgit_not_colon (l : String) (h : pyStartsWith l "diff --git" = true) :
    pyStartsWith l ":" = false := by
  obtain ⟨r, hr⟩ := pyStartsWith_head l "diff --git" 'd' "iff --git".data rfl h
  simp [pyStartsWith, hr, List.isPrefixOf]

theorem pass1Step_skip (acc : P1) (l : String) (h : pyStartsWith l ":" = false) :
    pass1Step acc l = acc := by
  simp [pass1Step, h]

theorem pass1_fold_skip (sec : List String)
    (h : ∀ l ∈ sec, pyStartsWith l ":" = false) :
    ∀ acc : P1, sec.foldl pass1Step acc = acc := by
  induction sec with
  | nil => intro acc; rfl
  | cons l ls ih =>
      intro acc
      rw [List.foldl_cons, pass1Step_skip acc l (h l (by simp))]
      exact ih (fun x hx => h x (by simp [hx])) acc

theorem set_self_of_getElem {α : Type} (l : List α) :
    ∀ (i : Nat) (a : α), l[i]? = some a → l.set i a = l := by
  induction l with
  | nil => intro i a h; simp at h
  | cons x xs ih =>
      intro i a h
      cases i with
      | zero => simp at h; simp [List.set, h]
      | succ j =>
          simp at h
          simp [List.set, ih j a h]

theorem flushSection_pathPairs (s : S2) :
    pathPairs (flushSection s).store = pathPairs s.store := by
  obtain ⟨cur, curLines, store, d, trace⟩ := s
  cases cur with
  | none => rfl
  | some p =>
      simp only [flushSection]
      split
      · cases hfind : find_file_change_by_path store d p with
        | none => rfl
        | some i =>
            simp only
            cases hfc : store[i]? with
            | none => rfl
            | some fc =>
                simp only [pathPairs]
                rw [List.map_set]
                apply set_self_of_getElem
                rw [List.getElem?_map, hfc]
                rfl
      · rfl

theorem pass2Step_pathPairs (s : S2) (l : String) :
    pathPairs (pass2Step s l).store = pathPairs s.store := by
  unfold pass2Step
  split
  · rfl
  · split
    · exact flushSection_pathPairs s
    · split
      · split
        · split
          · split <;> rfl
          · rfl
        · rfl
      · rfl

theorem pass2_fold_pathPairs (body : List String) : ∀ s : S2,
    pathPairs ((body.foldl pass2Step s).store) = pathPairs s.store := by
  induction body with
  | nil => intro s; rfl
  | cons l ls ih =>
      intro s
      rw [List.foldl_cons, ih (pass2Step s l), pass2Step_pathPairs s l]

theorem find_none (store : List FileChange) (d : Dict) (p : String)
    (h : ∀ fc ∈ store, fc.path ≠ some p ∧ fc.old_path ≠ some p) :
    find_file_change_by_path store d p = none := by
  unfold find_file_change_by_path
  rw [List.findSome?_eq_none_iff]
  intro kv hkv
  cases hfc : store[kv.2]? with
  | none => simp [hfc]
  | some fc =>
      have h2 := h fc (List.getElem?_mem hfc)
      simp [hfc, h2.1, h2.2]

theorem find_none_transfer (store S : List FileChange) (d : Dict) (p : String)
    (hpp : pathPairs store = pathPairs S)
    (h : ∀ fc ∈ S, fc.path ≠ some p ∧ fc.old_path ≠ some p) :
    find_file_change_by_path store d p = none := by
  apply find_none
  intro fc hfc
  have hmem : (fc.path, fc.old_path) ∈ pathPairs S := by
    rw [← hpp]
    exact List.mem_map.mpr ⟨fc, hfc, rfl⟩
  rcases List.mem_map.mp hmem with ⟨fc2, hfc2, heq⟩
  have h2 := h fc2 hfc2
  have h3 : fc2.path = fc.path := congrArg Prod.fst heq
  have h4 : fc2.old_path = fc.old_path := congrArg Prod.snd heq
  rw [← h3, ← h4]
  exact h2

theorem flushSection_id (s : S2)
    (h : s.cur = none ∨ ∃ p, s.cur = some p ∧
      find_file_change_by_path s.store s.dict p = none) :
    flushSection s = s := by
  rcases h with h | ⟨p, hp, hfind⟩
  · unfold flushSection
    rw [h]
  · unfold flushSection
    split
    · rename_i o ho
      rw [hp] at ho
      injection ho with ho2
      subst ho2
      split
      · rw [hfind]
      · rfl
    · rfl

theorem pass2Step_id (s : S2) (l : String)
    (hl1 : pyStartsWith l ":" = false) (hl2 : pyStartsWith l "diff --git" = false)
    (h : s.cur = none ∨ ∃ p, s.cur = some p ∧
      find_file_change_by_path s.store s.dict p = none) :
    pass2Step s l = s := by
  unfold pass2Step
  rw [hl1, hl2]
  simp only [Bool.false_eq_true, if_false]
  rcases h with hc | ⟨p, hp, hfind⟩
  · rw [hc]
  · split
    · rename_i o ho
      rw [hp] at ho
      injection ho with ho2
      subst ho2
      split
      · rw [hfind]
      · rfl
    · rfl

theorem pass2_fold_id (body : List String) (s : S2)
    (hb : ∀ l ∈ body, pyStartsWith l "diff --git" = false ∧ pyStartsWith l ":" = false)
    (h : s.cur = none ∨ ∃ p, s.cur = some p ∧
      find_file_change_by_path s.store s.dict p = none) :
    body.foldl pass2Step s = s := by
  induction body with
  | nil => rfl
  | cons l ls ih =>
      rw [List.foldl_cons,
        pass2Step_id s l (hb l (by simp)).2 (hb l (by simp)).1 h]
      exact ih (fun x hx => hb x (by simp [hx]))

theorem pass2Step_hdr (s : S2) (l : String)
    (h : pyStartsWith l "diff --git" = true) :
    pass2Step s l = ⟨diffHeaderPath l,
      if (diffHeaderPath l).isSome then [l] else [],
      (flushSection s).store, (flushSection s).dict, (flushSection s).trace⟩ := by
  unfold pass2Step
  rw [dgit_not_colon l h, h]
  simp

/-- Core of C5: inserting a whole diff section (header plus content
lines, up to the next header or end of input) whose attribution path
matches no file change leaves the store and the dictionary of the
second pass unchanged. -/
theorem pass2_unmatched_section (S : List FileChange) (d0 : Dict)
    (pre body post : List String) (hdr : String)
    (Hh : pyStartsWith hdr "diff --git" = true)
    (Hb : ∀ l ∈ body, pyStartsWith l "diff --git" = false ∧ pyStartsWith l ":" = false)
    (Hp : post = [] ∨ ∃ hd tl, post = hd :: tl ∧ pyStartsWith hd "diff --git" = true)
    (Hu : ∀ p, diffHeaderPath hdr = some p →
      ∀ fc ∈ S, fc.path ≠ some p ∧ fc.old_path ≠ some p) :
    (pass2 S d0 (pre ++ (hdr :: body) ++ post)).store =
      (pass2 S d0 (pre ++ post)).store ∧
    (pass2 S d0 (pre ++ (hdr :: body) ++ post)).dict =
      (pass2 S d0 (pre ++ post)).dict := by
  have hfold1 : ∀ s : S2, (pre ++ (hdr :: body) ++ post).foldl pass2Step s =
      post.foldl pass2Step (body.foldl pass2Step
        (pass2Step (pre.foldl pass2Step s) hdr)) := by
    intro s
    rw [List.foldl_append, List.foldl_append, List.foldl_cons]
  have hfold2 : ∀ s : S2, (pre ++ post).foldl pass2Step s =
      post.foldl pass2Step (pre.foldl pass2Step s) := by
    intro s
    rw [List.foldl_append]
  have hAdef := pass2Step_hdr (pre.foldl pass2Step ⟨none, [], S, d0, []⟩) hdr Hh
  have hApp : pathPairs (pass2Step (pre.foldl pass2Step ⟨none, [], S, d0, []⟩) hdr).store =
      pathPairs S := by
    rw [hAdef]
    have h1 := flushSection_pathPairs (pre.foldl pass2Step ⟨none, [], S, d0, []⟩)
    have h2 := pass2_fold_pathPairs pre ⟨none, [], S, d0, []⟩
    exact h1.trans h2
  have hAcond : (pass2Step (pre.foldl pass2Step ⟨none, [], S, d0, []⟩) hdr).cur = none ∨
      ∃ p, (pass2Step (pre.foldl pass2Step ⟨none, [], S, d0, []⟩) hdr).cur = some p ∧
        find_file_change_by_path
          (pass2Step (pre.foldl pass2Step ⟨none, [], S, d0, []⟩) hdr).store
          (pass2Step (pre.foldl pass2Step ⟨none, [], S, d0, []⟩) hdr).dict p = none := by
    cases hDH : diffHeaderPath hdr with
    | none => left; rw [hAdef, hDH]
    | some p =>
        right
        refine ⟨p, by rw [hAdef, hDH], ?_⟩
        exact find_none_transfer _ S _ p hApp (Hu p hDH)
  have hbodyfold : body.foldl pass2Step
      (pass2Step (pre.foldl pass2Step ⟨none, [], S, d0, []⟩) hdr) =
      pass2Step (pre.foldl pass2Step ⟨none, [], S, d0, []⟩) hdr :=
    pass2_fold_id body _ Hb hAcond
  have hAflush : flushSection (pass2Step (pre.foldl pass2Step ⟨none, [], S, d0, []⟩) hdr) =
      pass2Step (pre.foldl pass2Step ⟨none, [], S, d0, []⟩) hdr :=
    flushSection_id _ hAcond
  rcases Hp with rfl | ⟨hd, tl, rfl, hhd⟩
  · unfold pass2
    rw [hfold1, hfold2]
    simp only [List.foldl_nil]
    rw [hbodyfold, hAflush, hAdef]
    exact ⟨rfl, rfl⟩
  · have hstepeq : pass2Step (pass2Step (pre.foldl pass2Step ⟨none, [], S, d0, []⟩) hdr) hd =
        pass2Step (pre.foldl pass2Step ⟨none, [], S, d0, []⟩) hd := by
      rw [pass2Step_hdr _ hd hhd, pass2Step_hdr (pre.foldl pass2Step ⟨none, [], S, d0, []⟩) hd hhd,
        hAflush, hAdef]
    unfold pass2
    rw [hfold1, hfold2]
    rw [hbodyfold]
    rw [List.foldl_cons, List.foldl_cons, hstepeq]
    exact ⟨rfl, rfl⟩

/-- C5 at the level of `fileChangesOf`: a fully unmatched diff section
contributes nothing to the assembled file-change list. -/
theorem fileChangesOf_unmatched_section (pre body post : List String) (hdr : String)
    (Hh : pyStartsWith hdr "diff --git" = true)
    (Hb : ∀ l ∈ body, pyStartsWith l "diff --git" = false ∧ pyStartsWith l ":" = false)
    (Hp : post = [] ∨ ∃ hd tl, post = hd :: tl ∧ pyStartsWith hd "diff --git" = true)
    (Hu : ∀ p, diffHeaderPath hdr = some p →
      ∀ fc ∈ pass1Store (pre ++ (hdr :: body) ++ post),
        fc.path ≠ some p ∧ fc.old_path ≠ some p) :
    fileChangesOf (pre ++ (hdr :: body) ++ post) = fileChangesOf (pre ++ post) := by
  have hsecskip : ∀ l ∈ hdr :: body, pyStartsWith l ":" = false := by
    intro l hl
    rcases List.mem_cons.mp hl with rfl | hl2
    · exact dgit_not_colon l Hh
    · exact (Hb l hl2).2
  have hp1 : pass1 (pre ++ (hdr :: body) ++ post) = pass1 (pre ++ post) := by
    unfold pass1
    rw [List.foldl_append, List.foldl_append, List.foldl_append,
      pass1_fold_skip (hdr :: body) hsecskip]
  have hu2 : ∀ p, diffHeaderPath hdr = some p →
      ∀ fc ∈ (pass1 (pre ++ post)).store, fc.path ≠ some p ∧ fc.old_path ≠ some p := by
    intro p hp fc hfc
    apply Hu p hp
    unfold pass1Store
    rw [hp1]
    exact hfc
  obtain ⟨hstore, hdict⟩ := pass2_unmatched_section (pass1 (pre ++ post)).store
    (pass1 (pre ++ post)).dict pre body post hdr Hh Hb Hp hu2
  unfold fileChangesOf
  rw [hp1]
  simp only [hstore, hdict]

/-- C5: a diff section whose attribution path matches no FileChange's
`path` or `old_path` contributes no statistics to any record: the
whole result of `get_commit_details`'s core (no exception, and every
FileChange's line and hunk counters included) is exactly what it would
be if the section's lines were absent from the input. -/
theorem c5_unmatched_section_no_effect (tz : Int) (chash org repo l0 : String)
    (pre body post : List String) (hdr : String)
    (Hh : pyStartsWith hdr "diff --git" = true)
    (Hb : ∀ l ∈ body, pyStartsWith l "diff --git" = false ∧ pyStartsWith l ":" = false)
    (Hp : post = [] ∨ ∃ hd tl, post = hd :: tl ∧ pyStartsWith hd "diff --git" = true)
    (Hu : ∀ p, diffHeaderPath hdr = some p →
      ∀ fc ∈ pass1Store (pre ++ (hdr :: body) ++ post),
        fc.path ≠ some p ∧ fc.old_path ≠ some p) :
    gcdCore tz chash org repo (l0 :: (pre ++ (hdr :: body) ++ post)) =
      gcdCore tz chash org repo (l0 :: (pre ++ post)) := by
  have hfc := fileChangesOf_unmatched_section pre body post hdr Hh Hb Hp Hu
  simp only [gcdCore, hfc]

/-- Witness for C5: a diff section for path `x` in a commit that lists
no file changes at all; removing the section leaves the result
unchanged. -/
theorem c5_unmatched_section_no_effect_witness :
    gcdCore 0 "h" "o" "r"
      ["0\u0000a\u0000\u0000m", "diff --git a/x b/x", "+z"] =
    gcdCore 0 "h" "o" "r" ["0\u0000a\u0000\u0000m"] :=
  c5_unmatched_section_no_effect 0 "h" "o" "r" "0\u0000a\u0000\u0000m"
    [] ["+z"] [] "diff --git a/x b/x" (by decide)
    (by intro l hl; rcases List.mem_singleton.mp hl with rfl; exact ⟨by decide, by decide⟩)
    (Or.inl rfl)
    (by
      intro p hp fc hfc
      have h0 : pass1Store ([] ++ ("diff --git a/x b/x" :: ["+z"]) ++ []) = [] := rfl
      rw [h0] at hfc
      exact absurd hfc (List.not_mem_nil fc))

/-! ## Claim C9 -/

theorem dictGet_of_not_mem (d : Dict) (k : Option String)
    (h : k ∉ d.map Prod.fst) : dictGet d k = none := by
  induction d with
  | nil => rfl
  | cons kv rest ih =>
      have hk : kv.1 ≠ k := by
        intro he
        exact h (by simp [he.symm])
      obtain ⟨k1, v1⟩ := kv
      simp only [dictGet, if_neg hk]
      exact ih (fun hm => h (by simp at hm ⊢; exact Or.inr hm))

theorem dictSet_fresh (d : Dict) (k : Option String) (v : Nat)
    (h : k ∉ d.map Prod.fst) : dictSet d k v = d ++ [(k, v)] := by
  induction d with
  | nil => rfl
  | cons kv rest ih =>
      have hk : kv.1 ≠ k := by
        intro he
        exact h (by simp [he.symm])
      obtain ⟨k1, v1⟩ := kv
      simp only [dictSet, if_neg hk, List.cons_append]
      rw [ih (fun hm => h (by simp at hm ⊢; exact Or.inr hm))]

theorem dictGet_append_left (d e : Dict) (k : Option String) (v : Nat)
    (h : dictGet d k = some v) : dictGet (d ++ e) k = some v := by
  induction d with
  | nil => simp [dictGet] at h
  | cons kv rest ih =>
      obtain ⟨k1, v1⟩ := kv
      simp only [dictGet, List.cons_append] at h ⊢
      by_cases hk : k1 = k
      · rw [if_pos hk] at h ⊢; exact h
      · rw [if_neg hk] at h ⊢; exact ih h

theorem dictGet_append_right (d e : Dict) (k : Option String)
    (h : dictGet d k = none) : dictGet (d ++ e) k = dictGet e k := by
  induction d with
  | nil => rfl
  | cons kv rest ih =>
      obtain ⟨k1, v1⟩ := kv
      simp only [dictGet, List.cons_append] at h ⊢
      by_cases hk : k1 = k
      · rw [if_pos hk] at h; exact absurd h (by simp)
      · rw [if_neg hk] at h ⊢; exact ih h

theorem dictSet_self (d : Dict) (k : Option String) (v : Nat)
    (h : dictGet d k = some v) : dictSet d k v = d := by
  induction d with
  | nil => simp [dictGet] at h
  | cons kv rest ih =>
      obtain ⟨k1, v1⟩ := kv
      simp only [dictGet] at h
      by_cases hk : k1 = k
      · rw [if_pos hk] at h
        simp only [dictSet, if_pos hk]
        rw [hk, Option.some.inj h]
      · rw [if_neg hk] at h
        simp only [dictSet, if_neg hk]
        rw [ih h]

theorem dictSet_map_fst (d : Dict) (k : Option String) (v : Nat)
    (h : k ∉ d.map Prod.fst) : (dictSet d k v).map Prod.fst = d.map Prod.fst ++ [k] := by
  rw [dictSet_fresh d k v h]
  simp

theorem allKeys_append (s1 s2 : List FileChange) :
    allKeys (s1 ++ s2) = allKeys s1 ++ allKeys s2 := by
  simp [allKeys]

theorem allKeys_cons (fc : FileChange) (s : List FileChange) :
    allKeys (fc :: s) = keysOf fc ++ allKeys s := by
  simp [allKeys]

theorem pass1_cont_store (lines : List String) : ∀ acc : P1,
    (lines.foldl pass1Step acc).store = acc.store ++ newFCs lines := by
  induction lines with
  | nil => intro acc; simp [newFCs]
  | cons l ls ih =>
      intro acc
      rw [List.foldl_cons]
      by_cases hc : pyStartsWith l ":" = true
      · cases hp : parse_file_change l with
        | none =>
            rw [show pass1Step acc l = acc by simp [pass1Step, hc, hp]]
            rw [ih acc]
            simp [newFCs, List.filterMap_cons, hc, hp]
        | some fc =>
            have hstep : (pass1Step acc l).store = acc.store ++ [fc] := by
              simp [pass1Step, hc, hp]
            rw [ih (pass1Step acc l), hstep]
            simp [newFCs, List.filterMap_cons, hc, hp]
      · have hc2 : pyStartsWith l ":" = false := by simpa using hc
        rw [show pass1Step acc l = acc by simp [pass1Step, hc2]]
        rw [ih acc]
        simp [newFCs, List.filterMap_cons, hc2]

theorem keysOf_head (fc : FileChange) : ∃ rest, keysOf fc = fc.path :: rest := by
  cases ho : fc.old_path with
  | none => exact ⟨[], by simp [keysOf, ho]⟩
  | some o =>
      by_cases h : (o ≠ "" && fc.path ≠ some o) = true
      · exact ⟨[some o], by simp only [keysOf, ho, if_pos h]⟩
      · exact ⟨[], by simp only [keysOf, ho, if_neg h]⟩

theorem keysOf_alias (fc : FileChange) (o : String) (ho : fc.old_path = some o)
    (hne : o ≠ "") (hnp : fc.path ≠ some o) : keysOf fc = [fc.path, some o] := by
  have hg : (o ≠ "" && fc.path ≠ some o) = true := by simp [hne, hnp]
  simp only [keysOf, ho, if_pos hg]

theorem path_mem_keysOf (fc : FileChange) : fc.path ∈ keysOf fc := by
  obtain ⟨r, hr⟩ := keysOf_head fc
  rw [hr]
  simp

theorem pass1_dict_consistent (lines : List String) : ∀ acc : P1,
    acc.dict.map Prod.fst = allKeys acc.store →
    DictConsistent acc.store acc.dict →
    (allKeys acc.store ++ allKeys (newFCs lines)).Nodup →
    (lines.foldl pass1Step acc).dict.map Prod.fst =
        allKeys (lines.foldl pass1Step acc).store ∧
    DictConsistent (lines.foldl pass1Step acc).store (lines.foldl pass1Step acc).dict := by
  induction lines with
  | nil => intro acc h1 h2 _; exact ⟨h1, h2⟩
  | cons l ls ih =>
      intro acc h1 h2 hnd
      rw [List.foldl_cons]
      by_cases hc : pyStartsWith l ":" = true
      · cases hp : parse_file_change l with
        | none =>
            have hskip : pass1Step acc l = acc := by simp [pass1Step, hc, hp]
            have hnfc : newFCs (l :: ls) = newFCs ls := by
              simp [newFCs, List.filterMap_cons, hc, hp]
            rw [hnfc] at hnd
            rw [hskip]
            exact ih acc h1 h2 hnd
        | some fc =>
            have hnfc : newFCs (l :: ls) = fc :: newFCs ls := by
              simp [newFCs, List.filterMap_cons, hc, hp]
            rw [hnfc, allKeys_cons] at hnd
            have hdisj : ∀ k ∈ keysOf fc, k ∉ allKeys acc.store := by
              intro k hk hka
              rcases List.nodup_append.mp hnd with ⟨_, _, hdis⟩
              exact hdis hka (by simp [hk])
            have hknd : (keysOf fc).Nodup := by
              rcases List.nodup_append.mp hnd with ⟨_, hnd2, _⟩
              exact (List.nodup_append.mp hnd2).1
            have hkfresh : fc.path ∉ acc.dict.map Prod.fst := by
              rw [h1]
              exact hdisj fc.path (path_mem_keysOf fc)
            have hstore : (pass1Step acc l).store = acc.store ++ [fc] := by
              simp [pass1Step, hc, hp]
            have hd2 : (pass1Step acc l).dict =
                acc.dict ++ (keysOf fc).map (fun k => (k, acc.store.length)) := by
              simp only [pass1Step, hc, if_pos, hp]
              cases ho : fc.old_path with
              | none =>
                  simp only [keysOf, ho, List.map_cons, List.map_nil]
                  exact dictSet_fresh acc.dict fc.path acc.store.length hkfresh
              | some o =>
                  by_cases hg : (o ≠ "" && fc.path ≠ some o) = true
                  · have hgp : o ≠ "" ∧ fc.path ≠ some o := by simpa using hg
                    simp only [keysOf, ho, if_pos hg, List.map_cons, List.map_nil]
                    rw [dictSet_fresh acc.dict fc.path acc.store.length hkfresh]
                    have hofresh : some o ∉ (acc.dict ++ [(fc.path, acc.store.length)]).map Prod.fst := by
                      rw [List.map_append, h1]
                      intro hm
                      rcases List.mem_append.mp hm with hm1 | hm2
                      · exact hdisj (some o)
                          (by rw [keysOf_alias fc o ho hgp.1 hgp.2]; simp) hm1
                      · have heq2 : some o = fc.path := by simpa using hm2
                        exact absurd heq2.symm hgp.2
                    rw [dictSet_fresh _ (some o) acc.store.length hofresh]
                    simp
                  · simp only [keysOf, ho, if_neg hg, List.map_cons, List.map_nil]
                    exact dictSet_fresh acc.dict fc.path acc.store.length hkfresh
            have hinv1 : (pass1Step acc l).dict.map Prod.fst =
                allKeys (pass1Step acc l).store := by
              rw [hd2, hstore, allKeys_append, List.map_append, h1]
              congr 1
              rw [List.map_map]
              have hcompid : (Prod.fst ∘ fun k : Option String => (k, acc.store.length)) = id := rfl
              rw [hcompid, List.map_id]
              simp [allKeys]
            have hinv2 : DictConsistent (pass1Step acc l).store (pass1Step acc l).dict := by
              intro i fci hget
              rw [hstore] at hget
              rw [hd2]
              by_cases hi : i < acc.store.length
              · rw [List.getElem?_append_left hi] at hget
                obtain ⟨hA, hB⟩ := h2 i fci hget
                refine ⟨dictGet_append_left _ _ _ _ hA, ?_⟩
                intro o ho hne hnp
                exact dictGet_append_left _ _ _ _ (hB o ho hne hnp)
              · have hge : acc.store.length ≤ i := Nat.le_of_not_lt hi
                rw [List.getElem?_append_right hge] at hget
                cases hdcase : i - acc.store.length with
                | succ j => rw [hdcase] at hget; simp at hget
                | zero =>
                    rw [hdcase] at hget
                    simp at hget
                    subst hget
                    have hieq : i = acc.store.length := by omega
                    subst hieq
                    have hnone : dictGet acc.dict fc.path = none :=
                      dictGet_of_not_mem _ _ hkfresh
                    constructor
                    · rw [dictGet_append_right _ _ _ hnone]
                      obtain ⟨r, hr⟩ := keysOf_head fc
                      rw [hr]
                      simp [dictGet]
                    · intro o ho hne hnp
                      have hkeys := keysOf_alias fc o ho hne hnp
                      have honone : dictGet acc.dict (some o) = none := by
                        apply dictGet_of_not_mem
                        rw [h1]
                        exact hdisj (some o) (by rw [hkeys]; simp)
                      rw [dictGet_append_right _ _ _ honone, hkeys]
                      simp only [List.map_cons, List.map_nil]
                      simp [dictGet, hnp]
            have hnd2 : (allKeys (pass1Step acc l).store ++ allKeys (newFCs ls)).Nodup := by
              rw [hstore, allKeys_append]
              have hfc1 : allKeys [fc] = keysOf fc := by simp [allKeys]
              rw [hfc1, List.append_assoc]
              exact hnd
            exact ih (pass1Step acc l) hinv1 hinv2 hnd2
      · have hc2 : pyStartsWith l ":" = false := by simpa using hc
        have hskip : pass1Step acc l = acc := by simp [pass1Step, hc2]
        have hnfc : newFCs (l :: ls) = newFCs ls := by
          simp [newFCs, List.filterMap_cons, hc2]
        rw [hnfc] at hnd
        rw [hskip]
        exact ih acc h1 h2 hnd

theorem analyze_diff_path_eq (ls : List String) (fc : FileChange) :
    (analyze_diff ls fc).path = fc.path := rfl

theorem analyze_diff_old_path_eq (ls : List String) (fc : FileChange) :
    (analyze_diff ls fc).old_path = fc.old_path := rfl

theorem consistent_transfer (S store : List FileChange) (d : Dict)
    (hpp : pathPairs store = pathPairs S) (hcons : DictConsistent S d) :
    DictConsistent store d := by
  intro i fc hget
  have h1 : (pathPairs store)[i]? = some (fc.path, fc.old_path) := by
    rw [pathPairs, List.getElem?_map, hget]
    rfl
  rw [hpp, pathPairs, List.getElem?_map] at h1
  cases hS : S[i]? with
  | none => rw [hS] at h1; simp at h1
  | some fc2 =>
      rw [hS] at h1
      have h1b : (fc2.path, fc2.old_path) = (fc.path, fc.old_path) := by
        simpa using h1
      have hpth : fc2.path = fc.path := congrArg Prod.fst h1b
      have hold : fc2.old_path = fc.old_path := congrArg Prod.snd h1b
      obtain ⟨hA, hB⟩ := hcons i fc2 hS
      refine ⟨by rw [← hpth]; exact hA, ?_⟩
      intro o ho hne hnp
      exact hB o (by rw [hold]; exact ho) hne (by rw [hpth]; exact hnp)

theorem flushDict_eq (d : Dict) (i : Nat) (fc2 : FileChange)
    (hA : dictGet d fc2.path = some i)
    (hB : ∀ o, fc2.old_path = some o → o ≠ "" → fc2.path ≠ some o →
      dictGet d (some o) = some i) :
    flushDict d i fc2 = d := by
  unfold flushDict
  split
  · rename_i o ho
    by_cases hg : (o ≠ "" && fc2.path ≠ some o) = true
    · have hgp : o ≠ "" ∧ fc2.path ≠ some o := by simpa using hg
      rw [if_pos hg, dictSet_self d fc2.path i hA,
        dictSet_self d (some o) i (hB o ho hgp.1 hgp.2)]
    · rw [if_neg hg]
      exact dictSet_self d fc2.path i hA
  · exact dictSet_self d fc2.path i hA

theorem flushSection_dict_eq (s : S2) (hcons : DictConsistent s.store s.dict) :
    (flushSection s).dict = s.dict := by
  obtain ⟨cur, curLines, store, d, trace⟩ := s
  cases cur with
  | none => rfl
  | some p =>
      simp only [flushSection]
      split
      · cases hfind : find_file_change_by_path store d p with
        | none => rfl
        | some i =>
            simp only
            cases hfc : store[i]? with
            | none => rfl
            | some fc =>
                simp only
                obtain ⟨hA, hB⟩ := hcons i fc hfc
                apply flushDict_eq
                · rw [analyze_diff_path_eq]
                  exact hA
                · intro o ho hne hnp
                  rw [analyze_diff_old_path_eq] at ho
                  rw [analyze_diff_path_eq] at hnp
                  exact hB o ho hne hnp
      · rfl

theorem pass2Step_dict_eq (s : S2) (l : String)
    (hcons : DictConsistent s.store s.dict) :
    (pass2Step s l).dict = s.dict := by
  unfold pass2Step
  split
  · rfl
  · split
    · exact flushSection_dict_eq s hcons
    · split
      · split
        · split
          · split <;> rfl
          · rfl
        · rfl
      · rfl

theorem pass2_fold_dict_eq (body : List String) (S : List FileChange) (d0 : Dict)
    (hcons : DictConsistent S d0) : ∀ s : S2, s.dict = d0 →
      pathPairs s.store = pathPairs S →
      (body.foldl pass2Step s).dict = d0 := by
  induction body with
  | nil => intro s hd _; exact hd
  | cons l ls ih =>
      intro s hd hpp
      rw [List.foldl_cons]
      have hcons2 : DictConsistent s.store s.dict := by
        rw [hd]
        exact consistent_transfer S s.store d0 hpp hcons
      have hstep : (pass2Step s l).dict = d0 := by
        rw [pass2Step_dict_eq s l hcons2, hd]
      exact ih (pass2Step s l) hstep
        ((pass2Step_pathPairs s l).trans hpp)

theorem pass2_dict_eq (body : List String) (S : List FileChange) (d0 : Dict)
    (hcons : DictConsistent S d0) : (pass2 S d0 body).dict = d0 := by
  unfold pass2
  have hfold : (body.foldl pass2Step ⟨none, [], S, d0, []⟩).dict = d0 :=
    pass2_fold_dict_eq body S d0 hcons ⟨none, [], S, d0, []⟩ rfl rfl
  have hpp : pathPairs (body.foldl pass2Step ⟨none, [], S, d0, []⟩).store = pathPairs S :=
    pass2_fold_pathPairs body ⟨none, [], S, d0, []⟩
  have hcons2 : DictConsistent (body.foldl pass2Step ⟨none, [], S, d0, []⟩).store
      (body.foldl pass2Step ⟨none, [], S, d0, []⟩).dict := by
    rw [hfold]
    exact consistent_transfer S _ d0 hpp hcons
  rw [flushSection_dict_eq _ hcons2, hfold]

/-- C9 amended: when the keys contributed by the parsed change lines
are pairwise distinct — distinct final paths, aliases distinct from
each other and from every final path, which is the shape of real
`git show --raw` output — each final path maps to exactly one
FileChange in the lookup dictionary (its keys stay pairwise distinct),
and every record, a rename/copy entry in particular, is found at the
same single store index under its final path and under its `old_path`
alias, including after diff analysis has updated the record. -/
theorem c9_alias_and_path_same_record (body : List String)
    (H : (allKeys (pass1Store body)).Nodup) :
    ((pass2 (pass1 body).store (pass1 body).dict body).dict.map Prod.fst).Nodup ∧
    ∀ i fc, (pass2 (pass1 body).store (pass1 body).dict body).store[i]? = some fc →
      dictGet (pass2 (pass1 body).store (pass1 body).dict body).dict fc.path = some i ∧
      ∀ o, fc.old_path = some o → o ≠ "" → fc.path ≠ some o →
        dictGet (pass2 (pass1 body).store (pass1 body).dict body).dict (some o) = some i := by
  have hstore0 : (pass1 body).store = newFCs body := by
    unfold pass1
    rw [pass1_cont_store]
    rfl
  have hnd : (allKeys (⟨[], [], []⟩ : P1).store ++ allKeys (newFCs body)).Nodup := by
    have h0 : allKeys (⟨[], [], []⟩ : P1).store = [] := rfl
    rw [h0, List.nil_append]
    have h1 : pass1Store body = newFCs body := hstore0
    rw [← h1]
    exact H
  have hbase := pass1_dict_consistent body ⟨[], [], []⟩ rfl
    (by intro i fc h; simp at h) hnd
  obtain ⟨hinv1, hcons⟩ := hbase
  have hinv1b : (pass1 body).dict.map Prod.fst = allKeys (pass1 body).store := hinv1
  have hconsb : DictConsistent (pass1 body).store (pass1 body).dict := hcons
  have hdict : (pass2 (pass1 body).store (pass1 body).dict body).dict = (pass1 body).dict :=
    pass2_dict_eq body _ _ hconsb
  constructor
  · rw [hdict, hinv1b]
    have h1 : pass1Store body = (pass1 body).store := rfl
    rw [← h1]
    exact H
  · have hpp : pathPairs (pass2 (pass1 body).store (pass1 body).dict body).store =
        pathPairs (pass1 body).store := by
      unfold pass2
      exact (flushSection_pathPairs _).trans (pass2_fold_pathPairs body _)
    intro i fc hget
    have hres := consistent_transfer (pass1 body).store _ (pass1 body).dict hpp hconsb i fc hget
    rw [hdict]
    exact hres

/-- C9 counterexample: on `c9body` (a rename `o → x` followed by a
second change line whose final path is also `x`), the lookup structure
does not route the rename's final path back to the rename record: the
alias `o` resolves to store index 0 (the rename) while the final path
`x` resolves to index 1 (the later record) — not the very same
FileChange. -/
theorem c9_alias_counterexample :
    (pass1 c9body).store[0]? = some ⟨"Rename", some "x", some "o", "", 0, 0, 0, 0, 0⟩ ∧
    dictGet (pass2 (pass1 c9body).store (pass1 c9body).dict c9body).dict (some "o") = some 0 ∧
    dictGet (pass2 (pass1 c9body).store (pass1 c9body).dict c9body).dict (some "x") = some 1 :=
  ⟨rfl, rfl, rfl⟩

/-- Witness for the amended C9: a commit with one rename `o → x` whose
diff section has been analysed; both keys still resolve to index 0. -/
theorem c9_alias_and_path_same_record_witness :
    dictGet (pass2 (pass1 [":100644 100644 ab cd R100 o\tx",
        "diff --git a/x b/x", "@@ -1,0 +1,1 @@", "+q"]).store
      (pass1 [":100644 100644 ab cd R100 o\tx",
        "diff --git a/x b/x", "@@ -1,0 +1,1 @@", "+q"]).dict
      [":100644 100644 ab cd R100 o\tx",
        "diff --git a/x b/x", "@@ -1,0 +1,1 @@", "+q"]).dict (some "x") = some 0 ∧
    dictGet (pass2 (pass1 [":100644 100644 ab cd R100 o\tx",
        "diff --git a/x b/x", "@@ -1,0 +1,1 @@", "+q"]).store
      (pass1 [":100644 100644 ab cd R100 o\tx",
        "diff --git a/x b/x", "@@ -1,0 +1,1 @@", "+q"]).dict
      [":100644 100644 ab cd R100 o\tx",
        "diff --git a/x b/x", "@@ -1,0 +1,1 @@", "+q"]).dict (some "o") = some 0 := by
  have h := (c9_alias_and_path_same_record
    [":100644 100644 ab cd R100 o\tx",
      "diff --git a/x b/x", "@@ -1,0 +1,1 @@", "+q"] (by decide)).2
    0 ⟨"Rename", some "x", some "o", "", 1, 0, 1, 0, 0⟩ (by decide)
  exact ⟨h.1, h.2 "o" rfl (by decide) (by decide)⟩
